import Mathlib

/-!
Verification of the core canvas data model of `future_tokenizer`
(`src/future_tokenizer/core/models.py`): nodes, the canvas graph,
undo/redo snapshots, context gathering, links, search, compression and
serialization.  Python dicts are modelled as insertion-ordered association
lists, Python exceptions as `Option`/`Except` results, and the unbounded
recursions of the source as fueled recursions (fuel exhaustion models
divergence / `RecursionError` and is proved unreachable under the tree
invariants).
-/

namespace FutureTokenizer

/-! ### Python dict model: insertion-ordered association lists -/

/-- Lookup in a Python dict: first entry with the given key (keys are unique
in a real dict, and we carry a no-duplicate-keys invariant where needed). -/
def dictGet {α : Type} (m : List (String × α)) (k : String) : Option α :=
  (m.find? (fun e => e.1 = k)).map (·.2)

/-- Python `k in d`. -/
def dictMem {α : Type} (m : List (String × α)) (k : String) : Bool :=
  (dictGet m k).isSome

/-- Python `d[k] = v`: update in place when the key exists (keeping its
position), append otherwise. -/
def dictSet {α : Type} (m : List (String × α)) (k : String) (v : α) :
    List (String × α) :=
  match m with
  | [] => [(k, v)]
  | e :: es => if e.1 = k then (k, v) :: es else e :: dictSet es k v

/-- Python `del d[k]` for a key known to be present (the caller models the
`KeyError` case separately). -/
def dictDel {α : Type} (m : List (String × α)) (k : String) :
    List (String × α) :=
  m.filter (fun e => ¬ (e.1 = k))

/-- Keys of a dict, in insertion order (Python `d.keys()`). -/
def keysOf {α : Type} (m : List (String × α)) : List String :=
  m.map Prod.fst

/-- Values of a dict, in insertion order (Python `d.values()`). -/
def valuesOf {α : Type} (m : List (String × α)) : List α :=
  m.map Prod.snd

/-! ### Python set model: deduplicated lists -/

/-- Python `s.add(x)` on a set modelled as a deduplicated list. -/
def setInsert (l : List String) (x : String) : List String :=
  if x ∈ l then l else l ++ [x]

/-- Python `s.update(t)`. -/
def setUnion (l l' : List String) : List String :=
  l'.foldl setInsert l

/-! ### Python helpers: truthiness, slicing, case mapping, containment -/

/-- Python slice `s[:i]` with a possibly negative bound. -/
def pySliceTo (s : String) (i : Int) : String :=
  if i < 0 then String.mk (s.data.take ((s.length : Int) + i).toNat)
  else String.mk (s.data.take i.toNat)

/-- Python `str.lower` (ASCII-faithful; the claims evaluate only ASCII
content). -/
def pyLower (s : String) : String :=
  String.mk (s.data.map Char.toLower)

/-- ASCII whitespace stripped by Python `str.strip()`. -/
def pyWs (c : Char) : Bool :=
  c = ' ' || c = '\t' || c = '\n' || c = '\r' || c = Char.ofNat 12 ||
    c = Char.ofNat 11

/-- Python `str.strip()` (ASCII whitespace; the claims evaluate only ASCII
content). -/
def pyStrip (s : String) : String :=
  String.mk (((s.data.dropWhile pyWs).reverse.dropWhile pyWs).reverse)

/-- Python `s.startswith(p)`. -/
def pyStartsWith (s p : String) : Bool :=
  p.data.isPrefixOf s.data

/-- Python `str.split` on a one-character separator, keeping empty parts. -/
def splitChar (sep : Char) : List Char → List (List Char)
  | [] => [[]]
  | c :: cs =>
    if c = sep then [] :: splitChar sep cs
    else
      match splitChar sep cs with
      | [] => [[c]]
      | g :: gs => (c :: g) :: gs

/-- Python `content.split("\n")`. -/
def pySplitLines (s : String) : List String :=
  (splitChar '\n' s.data).map String.mk

/-- Python substring containment `q in s` over the characters of the two
strings. -/
def listSub (q : List Char) : List Char → Bool
  | [] => q.isEmpty
  | c :: cs => q.isPrefixOf (c :: cs) || listSub q cs

/-- Python `q in s` on strings. -/
def pyIn (q s : String) : Bool :=
  listSub q.data s.data

/-- Python truthiness of an optional string (`None` and `""` are falsy). -/
def pyTruthyStr : Option String → Bool
  | none => false
  | some s => ¬ (s = "")

/-- Python `a or b or ""` over two optional strings: first truthy value. -/
def pyFirstTruthy (a b : Option String) : String :=
  if pyTruthyStr a then a.getD "" else if pyTruthyStr b then b.getD "" else ""

/-! ### JSON values and `json.loads`
(`models.py` lines 789-811 call `json.loads` on extracted text).  Numbers
are modelled as integers: every JSON literal the claims evaluate is an
integer, and a float literal simply makes our parser fail where Python
would produce a float. -/

/-- Characters that are delicate to write literally. -/
def quoteChar : Char := Char.ofNat 34

/-- Backslash character. -/
def backslashChar : Char := Char.ofNat 92

/-- Opening curly brace character. -/
def lbraceChar : Char := Char.ofNat 123

/-- Closing curly brace character. -/
def rbraceChar : Char := Char.ofNat 125

/-- A Python value decoded from JSON. -/
inductive Json where
  | null
  | bool (b : Bool)
  | num (n : Int)
  | str (s : String)
  | arr (xs : List Json)
  | obj (kvs : List (String × Json))
deriving Repr

/-- Python truthiness of a decoded JSON value. -/
def jsonTruthy : Json → Bool
  | .null => false
  | .bool b => b
  | .num n => ¬ (n = 0)
  | .str s => ¬ (s = "")
  | .arr xs => ¬ xs.isEmpty
  | .obj kvs => ¬ kvs.isEmpty

/-- JSON whitespace accepted between tokens by `json.loads`. -/
def jsonWs (c : Char) : Bool :=
  c = ' ' || c = '\t' || c = '\n' || c = '\r'

/-- Skip JSON whitespace. -/
def skipWs (s : List Char) : List Char :=
  s.dropWhile jsonWs

/-- Value of a hexadecimal digit. -/
def hexVal (c : Char) : Option Nat :=
  if '0' ≤ c ∧ c ≤ '9' then some (c.toNat - '0'.toNat)
  else if 'a' ≤ c ∧ c ≤ 'f' then some (c.toNat - 'a'.toNat + 10)
  else if 'A' ≤ c ∧ c ≤ 'F' then some (c.toNat - 'A'.toNat + 10)
  else none

/-- Body of a JSON string after the opening quote: returns the decoded
characters and the remaining input after the closing quote. -/
def parseStringBody : Nat → List Char → Option (List Char × List Char)
  | 0, _ => none
  | _, [] => none
  | fuel + 1, c :: cs =>
    if c = quoteChar then some ([], cs)
    else if c = backslashChar then
      match cs with
      | [] => none
      | e :: cs' =>
        let dec : Option (Char × List Char) :=
          if e = quoteChar then some (quoteChar, cs')
          else if e = backslashChar then some (backslashChar, cs')
          else if e = '/' then some ('/', cs')
          else if e = 'b' then some (Char.ofNat 8, cs')
          else if e = 'f' then some (Char.ofNat 12, cs')
          else if e = 'n' then some ('\n', cs')
          else if e = 'r' then some ('\r', cs')
          else if e = 't' then some ('\t', cs')
          else if e = 'u' then
            match cs' with
            | h1 :: h2 :: h3 :: h4 :: cs'' =>
              match hexVal h1, hexVal h2, hexVal h3, hexVal h4 with
              | some a, some b, some c3, some d =>
                some (Char.ofNat (((a * 16 + b) * 16 + c3) * 16 + d), cs'')
              | _, _, _, _ => none
            | _ => none
          else none
        match dec with
        | none => none
        | some (d, rest) =>
          (parseStringBody fuel rest).map (fun p => (d :: p.1, p.2))
    else (parseStringBody fuel cs).map (fun p => (c :: p.1, p.2))

/-- Digits prefix of the input. -/
def spanDigits (s : List Char) : List Char × List Char :=
  (s.takeWhile Char.isDigit, s.dropWhile Char.isDigit)

/-- Natural number denoted by a digit list. -/
def digitsToNat (ds : List Char) : Nat :=
  ds.foldl (fun acc d => acc * 10 + (d.toNat - '0'.toNat)) 0

/-- Parse a JSON integer literal (strict: no leading zeros, and a fraction
or exponent — a float — is rejected rather than modelled). -/
def parseIntLit (s : List Char) : Option (Int × List Char) :=
  let (neg, s') := match s with
    | '-' :: rest => (true, rest)
    | _ => (false, s)
  match spanDigits s' with
  | ([], _) => none
  | (d :: ds, rest) =>
    if d = '0' ∧ ¬ ds.isEmpty then none
    else
      match rest with
      | '.' :: _ => none
      | 'e' :: _ => none
      | 'E' :: _ => none
      | _ =>
        let n : Int := (digitsToNat (d :: ds) : Int)
        some (if neg then -n else n, rest)

/-- Position of the recursive-descent parser: at a value, inside the
member list of an object, or inside the item list of an array. -/
inductive PTask where
  | value
  | members (acc : List (String × Json))
  | items (acc : List Json)

/-- The recursive-descent parser, one structurally fuelled function over
the three positions; every recursive call consumes fuel, so a generous
fuel below makes the parser total on the concrete inputs the claims
evaluate.  Inside an object, duplicate keys keep the last value, as
Python dicts do. -/
def parseP : Nat → PTask → List Char → Option (Json × List Char)
  | 0, _, _ => none
  | fuel + 1, PTask.value, s =>
    match s with
    | [] => none
    | c :: cs =>
      if c = quoteChar then
        (parseStringBody (cs.length + 1) cs).map
          (fun p => (Json.str (String.mk p.1), p.2))
      else if c = lbraceChar then
        match skipWs cs with
        | d :: ds =>
          if d = rbraceChar then some (Json.obj [], ds)
          else parseP fuel (PTask.members []) (d :: ds)
        | [] => none
      else if c = '[' then
        match skipWs cs with
        | d :: ds =>
          if d = ']' then some (Json.arr [], ds)
          else parseP fuel (PTask.items []) (d :: ds)
        | [] => none
      else if c = 't' then
        if "rue".data.isPrefixOf cs then some (Json.bool true, cs.drop 3)
        else none
      else if c = 'f' then
        if "alse".data.isPrefixOf cs then some (Json.bool false, cs.drop 4)
        else none
      else if c = 'n' then
        if "ull".data.isPrefixOf cs then some (Json.null, cs.drop 3)
        else none
      else
        (parseIntLit (c :: cs)).map (fun p => (Json.num p.1, p.2))
  | fuel + 1, PTask.members acc, s =>
    match s with
    | c :: cs =>
      if c = quoteChar then
        match parseStringBody (cs.length + 1) cs with
        | none => none
        | some (key, rest) =>
          match skipWs rest with
          | ':' :: rest' =>
            match parseP fuel PTask.value (skipWs rest') with
            | none => none
            | some (v, rest'') =>
              let acc' := dictSet acc (String.mk key) v
              match skipWs rest'' with
              | ',' :: rest3 =>
                match skipWs rest3 with
                | [] => none
                | t => parseP fuel (PTask.members acc') t
              | d :: rest3 =>
                if d = rbraceChar then some (Json.obj acc', rest3) else none
              | [] => none
          | _ => none
      else none
    | [] => none
  | fuel + 1, PTask.items acc, s =>
    match parseP fuel PTask.value s with
    | none => none
    | some (v, rest) =>
      match skipWs rest with
      | ',' :: rest' =>
        match skipWs rest' with
        | [] => none
        | t => parseP fuel (PTask.items (acc ++ [v])) t
      | ']' :: rest' => some (Json.arr (acc ++ [v]), rest')
      | _ => none

/-- Parse one JSON value (whitespace already skipped). -/
def parseValue (fuel : Nat) (s : List Char) : Option (Json × List Char) :=
  parseP fuel PTask.value s

/-- Python `json.loads`: parse a complete JSON document, rejecting trailing
garbage; `none` models `json.JSONDecodeError`. -/
def json_loads (s : String) : Option Json :=
  match parseValue (s.length * 4 + 16) (skipWs s.data) with
  | some (v, rest) => if (skipWs rest).isEmpty then some v else none
  | none => none

/-! ### Fenced-code-block extraction
Model of `re.search` with the pattern that grabs the lazily-matched group
between an opening fence (with optional `json` tag and following
whitespace) and a closing fence, with an optional newline excluded before
the close. -/

/-- Characters matched by the regex class of whitespace. -/
def reWsChar (c : Char) : Bool :=
  c = ' ' || c = '\t' || c = '\n' || c = '\r' || c = Char.ofNat 12 ||
    c = Char.ofNat 11

/-- Find the lazily-matched group ending at the first closing fence, where
a single newline directly before the close is consumed outside the group
(the optional-newline part tried first, as the regex engine does). -/
def fenceClose (acc : List Char) : List Char → Option (List Char)
  | [] => none
  | c :: cs =>
    if c = '\n' ∧ "```".data.isPrefixOf cs then some acc.reverse
    else if "```".data.isPrefixOf (c :: cs) then some acc.reverse
    else fenceClose (c :: acc) cs

/-- Scan left to right for the first opening fence from which the whole
pattern matches, as `re.search` does, and return the captured group. -/
def fenceSearch : List Char → Option (List Char)
  | [] => none
  | c :: cs =>
    if "```".data.isPrefixOf (c :: cs) then
      let after := (c :: cs).drop 3
      let after := if "json".data.isPrefixOf after then after.drop 4 else after
      let after := after.dropWhile reWsChar
      match fenceClose [] after with
      | some g => some g
      | none => fenceSearch cs
    else fenceSearch cs

/-! ### Compression (`_compress`, `_extract_json_summary`) -/

/-- Default preview cap (`DEFAULT_COMPRESSION_LENGTH`). -/
def DEFAULT_COMPRESSION_LENGTH : Nat := 100

/-- Undo stack capacity (`MAX_UNDO_HISTORY`). -/
def MAX_UNDO_HISTORY : Nat := 50

/-- Extract the value of a `summary` field from a JSON canvas artifact, the
JSON taken from a fenced code block or from content starting with an open
brace; `none` models Python's `return None` (including a swallowed
`JSONDecodeError`). -/
def _extract_json_summary (content : String) : Option Json :=
  let js0 : Option String :=
    (fenceSearch content.data).map (fun g => String.mk g)
  let js1 : Option String :=
    if ¬ pyTruthyStr js0 then
      if pyStartsWith (pyStrip content) "\x7b" then some (pyStrip content)
      else js0
    else js0
  if ¬ pyTruthyStr js1 then none
  else
    match json_loads (js1.getD "") with
    | none => none
    | some parsed =>
      match parsed with
      | Json.obj kvs => dictGet kvs "summary"
      | _ => none

/-- Preamble phrases skipped when picking the preview line. -/
def skip_patterns : List String :=
  ["i\x27ll apply", "i will apply", "okay", "ok,", "sure,", "let me",
   "i\x27ll run", "i will run", "applying", "running", "here\x27s",
   "---"]

/-- Return the line unchanged when under the cap, else truncate with an
ellipsis (Python `line[:max_len - 3] + "..."`, with Python slice semantics
for a negative bound). -/
def truncEllipsis (line : String) (max_len : Nat) : String :=
  if line.length ≤ max_len then line
  else pySliceTo line ((max_len : Int) - 3) ++ "..."

/-- First substantive line: skip preamble-prefixed lines, short markdown
headers, and lines under ten characters. -/
def findSubstantive (max_len : Nat) : List String → Option String
  | [] => none
  | line :: rest =>
    let line_lower := pyLower line
    if skip_patterns.any (fun p => pyStartsWith line_lower p) then
      findSubstantive max_len rest
    else if pyStartsWith line "#" ∧ line.length < 30 then
      findSubstantive max_len rest
    else if line.length < 10 then
      findSubstantive max_len rest
    else some (truncEllipsis line max_len)

/-- Line-scanning part of `_compress`: non-blank stripped lines, first
substantive line, fallback to the first line or the raw prefix. -/
def compressLines (content : String) (max_len : Nat) : Except String String :=
  let lines := ((pySplitLines content).map pyStrip).filter (fun l => ¬ (l = ""))
  match findSubstantive max_len lines with
  | some r => Except.ok r
  | none =>
    let first_line :=
      match lines with
      | [] => pySliceTo content (max_len : Int)
      | l :: _ => l
    Except.ok (truncEllipsis first_line max_len)

/-- Compress content to a preview of at most `max_len` characters.  When a
truthy JSON `summary` value is present Python calls `len(summary)` and
concatenates it with `"..."`: for a non-string summary this raises
`TypeError` for numbers and booleans outright and for over-long lists and
dicts at the concatenation, while a short list or dict would be stored
ill-typed into the `str`-annotated field; the model reports every truthy
non-string summary as the type violation it is. -/
def _compress (content : String)
    (max_len : Nat := DEFAULT_COMPRESSION_LENGTH) : Except String String :=
  match _extract_json_summary content with
  | some summary =>
    if jsonTruthy summary then
      match summary with
      | Json.str s => Except.ok (truncEllipsis s max_len)
      | _ => Except.error "TypeError"
    else compressLines content max_len
  | none => compressLines content max_len

/-! ### Nodes -/

/-- Kind of a canvas node. -/
inductive NodeType where
  | ROOT
  | OPERATION
  | USER
  | PLAN
deriving DecidableEq, Repr

/-- Serialized tag of a node kind (`NodeType(...).value`). -/
def NodeType.value : NodeType → String
  | .ROOT => "root"
  | .OPERATION => "operation"
  | .USER => "user"
  | .PLAN => "plan"

/-- Parse a node kind tag; `none` models the `ValueError` that Python's
`NodeType(s)` raises on an unknown tag. -/
def NodeType.ofValue (s : String) : Option NodeType :=
  if s = "root" then some .ROOT
  else if s = "operation" then some .OPERATION
  else if s = "user" then some .USER
  else if s = "plan" then some .PLAN
  else none

/-- Single node in the thinking graph.  `id` generation (`uuid`) and
timestamps are environment inputs, so they appear as plain data here; the
float field `cost_usd` is omitted since floating point is outside this
embedding and no algorithm reads it. -/
structure CanvasNode where
  id : String
  type : NodeType
  content_compressed : String
  content_full : String
  parent_id : Option String := none
  operation : Option String := none
  children_ids : List String := []
  created_at : String := ""
  links_to : List String := []
  context_snapshot : List String := []
  excluded : Bool := false
  source_ids : List String := []
  invocation_target : Option String := none
  invocation_prompt : Option String := none
  used_web_search : Bool := false
  input_tokens : Int := 0
  output_tokens : Int := 0
  cache_read_tokens : Int := 0
  cache_creation_tokens : Int := 0
deriving DecidableEq, Repr

/-- Serialized form of a node (`asdict` with the kind as its tag). -/
structure NodeDict where
  id : String
  type : String
  content_compressed : String
  content_full : String
  parent_id : Option String
  operation : Option String
  children_ids : List String
  created_at : String
  links_to : List String
  context_snapshot : List String
  excluded : Bool
  source_ids : List String
  invocation_target : Option String
  invocation_prompt : Option String
  used_web_search : Bool
  input_tokens : Int
  output_tokens : Int
  cache_read_tokens : Int
  cache_creation_tokens : Int
deriving DecidableEq, Repr

/-- Serialize a node to a dict. -/
def CanvasNode.to_dict (n : CanvasNode) : NodeDict :=
  { id := n.id
    type := n.type.value
    content_compressed := n.content_compressed
    content_full := n.content_full
    parent_id := n.parent_id
    operation := n.operation
    children_ids := n.children_ids
    created_at := n.created_at
    links_to := n.links_to
    context_snapshot := n.context_snapshot
    excluded := n.excluded
    source_ids := n.source_ids
    invocation_target := n.invocation_target
    invocation_prompt := n.invocation_prompt
    used_web_search := n.used_web_search
    input_tokens := n.input_tokens
    output_tokens := n.output_tokens
    cache_read_tokens := n.cache_read_tokens
    cache_creation_tokens := n.cache_creation_tokens }

/-- Deserialize a node from a dict; `none` models the `ValueError` on an
unknown kind tag. -/
def CanvasNode.from_dict (d : NodeDict) : Option CanvasNode :=
  (NodeType.ofValue d.type).map fun t =>
    { id := d.id
      type := t
      content_compressed := d.content_compressed
      content_full := d.content_full
      parent_id := d.parent_id
      operation := d.operation
      children_ids := d.children_ids
      created_at := d.created_at
      links_to := d.links_to
      context_snapshot := d.context_snapshot
      excluded := d.excluded
      source_ids := d.source_ids
      invocation_target := d.invocation_target
      invocation_prompt := d.invocation_prompt
      used_web_search := d.used_web_search
      input_tokens := d.input_tokens
      output_tokens := d.output_tokens
      cache_read_tokens := d.cache_read_tokens
      cache_creation_tokens := d.cache_creation_tokens }

/-- Node serialization round-trips exactly. -/
theorem CanvasNode.from_dict_to_dict (n : CanvasNode) :
    CanvasNode.from_dict n.to_dict = some n := by
  cases n with
  | mk id type cc cf p op ch ca lk cs ex si it ip ws i o cr ccr =>
    cases type <;> rfl

/-- Create a root node with initial content; the generated id is an
environment input.  Compression may raise, which the `Except` propagates. -/
def CanvasNode.create_root (content : String) (id : String)
    (created_at : String := "") : Except String CanvasNode :=
  (_compress content).map fun cc =>
    { id := id
      type := NodeType.ROOT
      content_compressed := cc
      content_full := content
      created_at := created_at }

/-- Create a user annotation node. -/
def CanvasNode.create_note (content : String) (parent_id : String)
    (id : String) (created_at : String := "") : Except String CanvasNode :=
  (_compress content).map fun cc =>
    { id := id
      type := NodeType.USER
      content_compressed := cc
      content_full := content
      parent_id := some parent_id
      created_at := created_at }

/-- Update node content and recompute the preview.  Python assigns
`content_full` first and then computes the preview, so on a compression
`TypeError` the exception escapes with the node half-updated; the error
result models that escaping exception. -/
def CanvasNode.update_content (n : CanvasNode) (new_content : String)
    (compress_length : Nat := DEFAULT_COMPRESSION_LENGTH) :
    Except String CanvasNode :=
  (_compress new_content compress_length).map fun cc =>
    { n with content_full := new_content, content_compressed := cc }

/-- Add a cross-link on the node itself; returns whether it was added. -/
def CanvasNode.add_link (n : CanvasNode) (target_id : String) :
    Bool × CanvasNode :=
  if ¬ (target_id ∈ n.links_to) then
    (true, { n with links_to := n.links_to ++ [target_id] })
  else (false, n)

/-- Remove a cross-link on the node itself; returns whether it was
removed (Python `list.remove` drops the first occurrence). -/
def CanvasNode.remove_link (n : CanvasNode) (target_id : String) :
    Bool × CanvasNode :=
  if target_id ∈ n.links_to then
    (true, { n with links_to := n.links_to.erase target_id })
  else (false, n)

/-! ### Canvas -/

/-- Undo snapshot: whole-state copy of `{nodes, root_id, active_path}`,
node values stored in serialized form as `_snapshot` does. -/
structure Snapshot where
  nodes : List (String × NodeDict)
  root_id : Option String
  active_path : List String
deriving DecidableEq, Repr

/-- The full thinking graph.  The undo/redo stacks are part of the state
but are excluded from serialization. -/
@[ext] structure Canvas where
  name : String
  nodes : List (String × CanvasNode) := []
  root_id : Option String := none
  active_path : List String := []
  created_at : String := ""
  compress_length : Nat := DEFAULT_COMPRESSION_LENGTH
  source_directory : Option String := none
  source_file : Option String := none
  undo_stack : List Snapshot := []
  redo_stack : List Snapshot := []
deriving DecidableEq, Repr

/-- Snapshot of the current state for undo (`deepcopy` of serialized nodes
is the identity in a pure model). -/
def Canvas._snapshot (c : Canvas) : Snapshot :=
  { nodes := c.nodes.map (fun e => (e.1, e.2.to_dict))
    root_id := c.root_id
    active_path := c.active_path }

/-- Push the current state onto the undo stack, evicting the oldest entry
past the capacity, and clear the redo stack. -/
def Canvas._push_undo (c : Canvas) : Canvas :=
  let u := c.undo_stack ++ [c._snapshot]
  { c with
    undo_stack := if MAX_UNDO_HISTORY < u.length then u.drop 1 else u
    redo_stack := [] }

/-- Rebuild a node map from serialized nodes, as the dict comprehension in
`_restore_snapshot` / the loop in `from_dict` do; an entrywise map is exact
because a Python dict's keys are unique.  `none` models the propagated
`ValueError` on an unknown kind tag. -/
def restoreNodes (l : List (String × NodeDict)) :
    Option (List (String × CanvasNode)) :=
  l.mapM (fun e => (CanvasNode.from_dict e.2).map (fun n => (e.1, n)))

/-- Restore canvas fields from a snapshot. -/
def Canvas._restore_snapshot (c : Canvas) (s : Snapshot) : Option Canvas :=
  (restoreNodes s.nodes).map fun ns =>
    { c with nodes := ns, root_id := s.root_id, active_path := s.active_path }

/-- Undo the last action; `False` when there is nothing to undo.  The
current state is pushed onto the redo stack first. -/
def Canvas.undo (c : Canvas) : Option (Bool × Canvas) :=
  match c.undo_stack.getLast? with
  | none => some (false, c)
  | some state =>
    let c1 := { c with
      redo_stack := c.redo_stack ++ [c._snapshot]
      undo_stack := c.undo_stack.dropLast }
    (c1._restore_snapshot state).map (fun c2 => (true, c2))

/-- Redo the last undone action; the mirror of `undo`.  Note the push onto
the undo stack here is not capacity-bounded in the source. -/
def Canvas.redo (c : Canvas) : Option (Bool × Canvas) :=
  match c.redo_stack.getLast? with
  | none => some (false, c)
  | some state =>
    let c1 := { c with
      undo_stack := c.undo_stack ++ [c._snapshot]
      redo_stack := c.redo_stack.dropLast }
    (c1._restore_snapshot state).map (fun c2 => (true, c2))

/-- Whether undo is available. -/
def Canvas.can_undo (c : Canvas) : Bool :=
  0 < c.undo_stack.length

/-- Whether redo is available. -/
def Canvas.can_redo (c : Canvas) : Bool :=
  0 < c.redo_stack.length

/-- Register a freshly added node in its parent's children list when the
parent id is truthy and resolves, idempotently (the in-place parent
mutation of `add_node`). -/
def addNodeChild (m : List (String × CanvasNode)) (node : CanvasNode) :
    List (String × CanvasNode) :=
  match node.parent_id with
  | none => m
  | some p =>
    if p = "" then m
    else
      match dictGet m p with
      | none => m
      | some parent =>
        if node.id ∈ parent.children_ids then m
        else
          dictSet m p { parent with
            children_ids := parent.children_ids ++ [node.id] }

/-- Add a node to the canvas, updating the parent's children list when the
parent id is truthy and present, and taking over the root pointer and the
active path when the node is Root-kind. -/
def Canvas.add_node (c : Canvas) (node : CanvasNode)
    (record_undo : Bool := true) : Canvas :=
  let c := if record_undo then c._push_undo else c
  let c := { c with nodes := addNodeChild (dictSet c.nodes node.id node) node }
  if node.type = NodeType.ROOT then
    { c with root_id := some node.id, active_path := [node.id] }
  else c

/-- Walk `parent_id` pointers upward collecting ids, stopping at a falsy
current id; `none` models a `KeyError` on a dangling parent or the
non-termination of the source's `while` loop on a parent cycle (the fuel
passed by callers is proved sufficient under the tree invariants). -/
def walkUp (m : List (String × CanvasNode)) : Nat → String →
    Option (List String)
  | 0, _ => none
  | fuel + 1, current =>
    if current = "" then some []
    else
      match dictGet m current with
      | none => none
      | some n => (walkUp m fuel (n.parent_id.getD "")).map
          (fun p => current :: p)

/-- Recompute the active path from the root to this node; a no-op when the
id is unknown. -/
def Canvas.set_focus (c : Canvas) (node_id : String) : Option Canvas :=
  if ¬ dictMem c.nodes node_id then some c
  else
    (walkUp c.nodes (c.nodes.length + 1) node_id).map
      (fun path => { c with active_path := path.reverse })

/-- Currently focused node: the end of the active path. -/
def Canvas.get_focus_node (c : Canvas) : Option CanvasNode :=
  match c.active_path.getLast? with
  | none => none
  | some last => dictGet c.nodes last

/-- Walk the active path from the front, collecting nodes until reaching
`node_id` (exclusive); `none` models a `KeyError` on a path id that is not
a key of `nodes`. -/
def ctxWalk (m : List (String × CanvasNode)) :
    List String → String → Option (List CanvasNode)
  | [], _ => some []
  | pid :: rest, node_id =>
    if pid = node_id then some []
    else
      match dictGet m pid with
      | none => none
      | some n => (ctxWalk m rest node_id).map (fun l => n :: l)

/-- Gather context for running an operation: the active-path walk up to
`node_id`, then the node at `node_id` itself when present. -/
def Canvas.get_context_for_operation (c : Canvas) (node_id : String) :
    Option (List CanvasNode) :=
  (ctxWalk c.nodes c.active_path node_id).map fun context =>
    match dictGet c.nodes node_id with
    | some n => context ++ [n]
    | none => context

mutual

/-- Recursively collect all descendant ids through `children_ids`,
accumulating them as a Python set; `none` models the unbounded recursion
of the source on a cyclic graph (fuel is proved sufficient under the tree
invariants). -/
def _collect_descendants (m : List (String × CanvasNode)) :
    Nat → String → Option (List String)
  | 0, _ => none
  | fuel + 1, node_id =>
    match dictGet m node_id with
    | none => some []
    | some node => collectChildren m fuel node.children_ids []
termination_by fuel _ => (fuel, 0)

/-- Fold of `_collect_descendants` over a children list: add each child and
the recursively collected descendants to the accumulated set. -/
def collectChildren (m : List (String × CanvasNode)) :
    Nat → List String → List String → Option (List String)
  | _, [], acc => some acc
  | fuel, child_id :: rest, acc =>
    match _collect_descendants m fuel child_id with
    | none => none
    | some ds =>
      collectChildren m fuel rest (setUnion (setInsert acc child_id) ds)
termination_by fuel l _ => (fuel, l.length + 1)

end

/-- Delete each listed id from the map; `none` models the `KeyError` that
`del` raises on a missing key. -/
def delAll (m : List (String × CanvasNode)) :
    List String → Option (List (String × CanvasNode))
  | [] => some m
  | nid :: rest =>
    if dictMem m nid then delAll (dictDel m nid) rest else none

/-- Strip the ids about to be deleted from the parent's children list,
when the parent id is truthy and resolves (the in-place parent mutation of
`delete_node`). -/
def deleteParentFix (m : List (String × CanvasNode))
    (parent_id : Option String) (to_delete : List String) :
    List (String × CanvasNode) :=
  match parent_id with
  | none => m
  | some p =>
    if p = "" then m
    else
      match dictGet m p with
      | none => m
      | some parent =>
        let kept :=
          parent.children_ids.filter (fun cid => ¬ (cid ∈ to_delete))
        dictSet m p { parent with children_ids := kept }

/-- Delete a node and all its descendants; refuses on the root and on an
unknown id, returning the parent id chosen for refocus otherwise. -/
def Canvas.delete_node (c : Canvas) (node_id : String)
    (record_undo : Bool := true) : Option (Option String × Canvas) :=
  match dictGet c.nodes node_id with
  | none => some (none, c)
  | some node =>
    if node.type = NodeType.ROOT then some (none, c)
    else
      let c := if record_undo then c._push_undo else c
      let parent_id := node.parent_id
      match _collect_descendants c.nodes (c.nodes.length + 1) node_id with
      | none => none
      | some descendants =>
        let to_delete := setInsert descendants node_id
        let c := { c with nodes := deleteParentFix c.nodes parent_id to_delete }
        match delAll c.nodes to_delete with
        | none => none
        | some m' =>
          let c := { c with nodes := m' }
          if node_id ∈ c.active_path then
            (c.set_focus (pyFirstTruthy parent_id c.root_id)).map
              (fun c' => (parent_id, c'))
          else some (parent_id, c)

/-- Edit a node's content; `False` on an unknown id.  A compression
`TypeError` escapes as an exception (`none`). -/
def Canvas.edit_node (c : Canvas) (node_id : String) (new_content : String)
    (record_undo : Bool := true) : Option (Bool × Canvas) :=
  match dictGet c.nodes node_id with
  | none => some (false, c)
  | some node =>
    let c := if record_undo then c._push_undo else c
    match node.update_content new_content c.compress_length with
    | Except.error _ => none
    | Except.ok node' =>
      some (true, { c with nodes := dictSet c.nodes node_id node' })

/-- Search nodes by substring of their full content, lowercasing both
sides unless case-sensitive; returns matches in insertion order. -/
def Canvas.search (c : Canvas) (query : String)
    (case_sensitive : Bool := false) : List CanvasNode :=
  let query := if ¬ case_sensitive then pyLower query else query
  (valuesOf c.nodes).filter fun node =>
    let content :=
      if case_sensitive then node.content_full else pyLower node.content_full
    pyIn query content

/-- Add a cross-link between nodes after validating that both ids exist
and differ; the undo snapshot is pushed before the (possibly idempotent)
link addition. -/
def Canvas.add_link (c : Canvas) (from_id to_id : String)
    (record_undo : Bool := true) : Bool × Canvas :=
  match dictGet c.nodes from_id, dictGet c.nodes to_id with
  | some from_node, some _ =>
    if from_id = to_id then (false, c)
    else
      let c := if record_undo then c._push_undo else c
      let r := from_node.add_link to_id
      (r.1, { c with nodes := dictSet c.nodes from_id r.2 })
  | _, _ => (false, c)

/-- Remove a cross-link; only the from-node's existence is checked, and
the undo snapshot is pushed before the removal attempt. -/
def Canvas.remove_link (c : Canvas) (from_id to_id : String)
    (record_undo : Bool := true) : Bool × Canvas :=
  match dictGet c.nodes from_id with
  | none => (false, c)
  | some from_node =>
    let c := if record_undo then c._push_undo else c
    let r := from_node.remove_link to_id
    (r.1, { c with nodes := dictSet c.nodes from_id r.2 })

/-- All nodes linked from this node, dangling entries filtered at read
time. -/
def Canvas.get_linked_nodes (c : Canvas) (node_id : String) :
    List CanvasNode :=
  match dictGet c.nodes node_id with
  | none => []
  | some node => node.links_to.filterMap (fun lid => dictGet c.nodes lid)

/-- All nodes that link to this node. -/
def Canvas.get_backlinks (c : Canvas) (node_id : String) : List CanvasNode :=
  (valuesOf c.nodes).filter (fun n => node_id ∈ n.links_to)

/-- Serialized form of a canvas (undo/redo stacks excluded); the two
source fields are present only when truthy. -/
structure CanvasDict where
  name : String
  nodes : List (String × NodeDict)
  root_id : Option String
  active_path : List String
  created_at : String
  compress_length : Nat
  source_directory : Option String
  source_file : Option String
deriving DecidableEq, Repr

/-- Serialize a canvas to a dict. -/
def Canvas.to_dict (c : Canvas) : CanvasDict :=
  { name := c.name
    nodes := c.nodes.map (fun e => (e.1, e.2.to_dict))
    root_id := c.root_id
    active_path := c.active_path
    created_at := c.created_at
    compress_length := c.compress_length
    source_directory :=
      if pyTruthyStr c.source_directory then c.source_directory else none
    source_file :=
      if pyTruthyStr c.source_file then c.source_file else none }

/-- Deserialize a canvas from a dict; node deserialization errors
propagate. -/
def Canvas.from_dict (d : CanvasDict) : Option Canvas :=
  (restoreNodes d.nodes).map fun ns =>
    { name := d.name
      nodes := ns
      root_id := d.root_id
      active_path := d.active_path
      created_at := d.created_at
      compress_length := d.compress_length
      source_directory := d.source_directory
      source_file := d.source_file }

/-! ### Dictionary lemmas -/

@[simp] theorem dictGet_nil {α : Type} (k : String) :
    dictGet ([] : List (String × α)) k = none := rfl

theorem dictGet_cons {α : Type} (e : String × α) (es : List (String × α))
    (k : String) :
    dictGet (e :: es) k = if e.1 = k then some e.2 else dictGet es k := by
  by_cases h : e.1 = k <;> simp [dictGet, List.find?, h]

@[simp] theorem keysOf_nil {α : Type} : keysOf ([] : List (String × α)) = [] :=
  rfl

@[simp] theorem keysOf_cons {α : Type} (e : String × α)
    (es : List (String × α)) : keysOf (e :: es) = e.1 :: keysOf es := rfl

theorem dictSet_cons {α : Type} (e : String × α) (es : List (String × α))
    (k : String) (v : α) :
    dictSet (e :: es) k v =
      if e.1 = k then (k, v) :: es else e :: dictSet es k v := rfl

theorem dictGet_mem {α : Type} {m : List (String × α)} {k : String} {v : α}
    (h : dictGet m k = some v) : (k, v) ∈ m := by
  induction m with
  | nil => simp at h
  | cons e es ih =>
    rw [dictGet_cons] at h
    by_cases hk : e.1 = k
    · simp only [hk, if_true, Option.some.injEq] at h
      subst h
      have he : e = (k, e.2) := by
        rw [← hk]
      rw [← he]
      exact List.mem_cons_self e es
    · simp only [hk, if_false] at h
      exact List.mem_cons_of_mem _ (ih h)

theorem dictGet_key_mem {α : Type} {m : List (String × α)} {k : String}
    {v : α} (h : dictGet m k = some v) : k ∈ keysOf m :=
  List.mem_map.2 ⟨(k, v), dictGet_mem h, rfl⟩

theorem dictGet_eq_none_iff {α : Type} {m : List (String × α)} {k : String} :
    dictGet m k = none ↔ ¬ (k ∈ keysOf m) := by
  induction m with
  | nil => simp
  | cons e es ih =>
    rw [dictGet_cons, keysOf_cons]
    by_cases hk : e.1 = k
    · simp [hk]
    · simp only [hk, if_false, List.mem_cons, ih]
      constructor
      · intro h hm
        rcases hm with h1 | h2
        · exact hk h1.symm
        · exact h h2
      · intro h hm
        exact h (Or.inr hm)

theorem dictGet_isSome_iff {α : Type} {m : List (String × α)} {k : String} :
    (dictGet m k).isSome = true ↔ k ∈ keysOf m := by
  rcases h : dictGet m k with _ | v
  · simpa [h] using dictGet_eq_none_iff.1 h
  · simp only [Option.isSome_some, true_iff]
    exact dictGet_key_mem h

theorem mem_dictGet_of_nodup {α : Type} {m : List (String × α)}
    (hnd : (keysOf m).Nodup) {k : String} {v : α} (h : (k, v) ∈ m) :
    dictGet m k = some v := by
  induction m with
  | nil => simp at h
  | cons e es ih =>
    rw [keysOf_cons, List.nodup_cons] at hnd
    rw [dictGet_cons]
    rcases List.mem_cons.1 h with h1 | h2
    · rw [← h1]
      simp
    · have hk : ¬ (e.1 = k) := by
        intro he
        exact hnd.1 (he ▸ List.mem_map.2 ⟨(k, v), h2, rfl⟩)
      simp only [hk, if_false]
      exact ih hnd.2 h2

theorem dictGet_dictSet_self {α : Type} (m : List (String × α)) (k : String)
    (v : α) : dictGet (dictSet m k v) k = some v := by
  induction m with
  | nil => simp [dictSet, dictGet_cons]
  | cons e es ih =>
    rw [dictSet_cons]
    by_cases hk : e.1 = k
    · simp [hk, dictGet_cons]
    · simp [hk, dictGet_cons, ih]

theorem dictGet_dictSet_ne {α : Type} (m : List (String × α)) {k k' : String}
    (v : α) (h : ¬ (k' = k)) :
    dictGet (dictSet m k v) k' = dictGet m k' := by
  induction m with
  | nil =>
    have : ¬ (k = k') := fun he => h he.symm
    simp [dictSet, dictGet_cons, this]
  | cons e es ih =>
    rw [dictSet_cons]
    by_cases hk : e.1 = k
    · have hkk : ¬ (k = k') := fun he => h he.symm
      simp only [hk, if_true]
      rw [dictGet_cons, dictGet_cons]
      simp [hk, hkk]
    · simp only [hk, if_false]
      rw [dictGet_cons, dictGet_cons, ih]

theorem keysOf_dictSet_mem {α : Type} (m : List (String × α)) (k : String)
    (v : α) (h : k ∈ keysOf m) : keysOf (dictSet m k v) = keysOf m := by
  induction m with
  | nil => simp at h
  | cons e es ih =>
    rw [dictSet_cons]
    by_cases hk : e.1 = k
    · simp [hk]
    · have h' : k ∈ keysOf es := by
        rcases List.mem_cons.1 (by simpa using h) with h1 | h2
        · exact absurd h1.symm hk
        · exact h2
      simp [hk, ih h']

theorem keysOf_dictSet_not_mem {α : Type} (m : List (String × α)) (k : String)
    (v : α) (h : ¬ (k ∈ keysOf m)) :
    keysOf (dictSet m k v) = keysOf m ++ [k] := by
  induction m with
  | nil => simp [dictSet]
  | cons e es ih =>
    have hk : ¬ (e.1 = k) := fun he => h (by simp [he])
    have h' : ¬ (k ∈ keysOf es) := fun hm => h (by simp [hm])
    rw [dictSet_cons]
    simp [hk, ih h']

theorem nodup_keysOf_dictSet {α : Type} (m : List (String × α)) (k : String)
    (v : α) (h : (keysOf m).Nodup) : (keysOf (dictSet m k v)).Nodup := by
  by_cases hm : k ∈ keysOf m
  · rwa [keysOf_dictSet_mem m k v hm]
  · rw [keysOf_dictSet_not_mem m k v hm]
    simpa [List.nodup_append] using ⟨h, fun hk => hm hk⟩

theorem mem_dictSet {α : Type} {m : List (String × α)}
    (hnd : (keysOf m).Nodup) (k : String) (v : α) {e : String × α} :
    e ∈ dictSet m k v ↔ (e = (k, v) ∨ (e ∈ m ∧ ¬ (e.1 = k))) := by
  induction m with
  | nil => simp [dictSet]
  | cons f es ih =>
    rw [keysOf_cons, List.nodup_cons] at hnd
    rw [dictSet_cons]
    by_cases hk : f.1 = k
    · simp only [hk, if_true, List.mem_cons]
      constructor
      · intro h
        rcases h with h | h
        · exact Or.inl h
        · refine Or.inr ⟨Or.inr h, fun he => ?_⟩
          exact hnd.1 (hk ▸ he ▸ List.mem_map.2 ⟨e, h, rfl⟩)
      · intro h
        rcases h with h | ⟨hm, hne⟩
        · exact Or.inl h
        · rcases hm with h1 | h2
          · exact absurd (h1 ▸ hk) hne
          · exact Or.inr h2
    · simp only [hk, if_false, List.mem_cons]
      rw [ih hnd.2]
      constructor
      · intro h
        rcases h with h | h | ⟨hm, hne⟩
        · exact Or.inr ⟨Or.inl h, fun he => hk (h ▸ he)⟩
        · exact Or.inl h
        · exact Or.inr ⟨Or.inr hm, hne⟩
      · intro h
        rcases h with h | ⟨hm, hne⟩
        · exact Or.inr (Or.inl h)
        · rcases hm with h1 | h2
          · exact Or.inl h1
          · exact Or.inr (Or.inr ⟨h2, hne⟩)

theorem dictSet_eq_of_get {α : Type} {m : List (String × α)} {k : String}
    {v : α} (h : dictGet m k = some v) : dictSet m k v = m := by
  induction m with
  | nil => simp at h
  | cons e es ih =>
    rw [dictGet_cons] at h
    rw [dictSet_cons]
    by_cases hk : e.1 = k
    · simp only [hk, if_true, Option.some.injEq] at h
      simp only [hk, if_true]
      cases e with
      | mk a b =>
        simp only at hk h
        rw [hk, h]
    · simp only [hk, if_false] at h
      simp [hk, ih h]

theorem mem_dictDel {α : Type} {m : List (String × α)} {k : String}
    {e : String × α} : e ∈ dictDel m k ↔ e ∈ m ∧ ¬ (e.1 = k) := by
  simp [dictDel, List.mem_filter]

@[simp] theorem dictDel_nil {α : Type} (k : String) :
    dictDel ([] : List (String × α)) k = [] := rfl

theorem dictDel_cons {α : Type} (e : String × α) (es : List (String × α))
    (k : String) :
    dictDel (e :: es) k =
      if e.1 = k then dictDel es k else e :: dictDel es k := by
  by_cases h : e.1 = k <;> simp [dictDel, List.filter_cons, h]

theorem keysOf_dictDel {α : Type} (m : List (String × α)) (k : String) :
    keysOf (dictDel m k) = (keysOf m).filter (fun x => ¬ (x = k)) := by
  induction m with
  | nil => simp
  | cons e es ih =>
    rw [dictDel_cons]
    by_cases hk : e.1 = k <;> simp [hk, ih]

theorem nodup_keysOf_dictDel {α : Type} {m : List (String × α)} (k : String)
    (h : (keysOf m).Nodup) : (keysOf (dictDel m k)).Nodup := by
  rw [keysOf_dictDel]
  exact h.filter _

theorem dictDel_not_mem {α : Type} {m : List (String × α)} {k : String}
    (h : ¬ (k ∈ keysOf m)) : dictDel m k = m := by
  induction m with
  | nil => rfl
  | cons e es ih =>
    have hk : ¬ (e.1 = k) := fun he => h (by simp [he])
    have h' : ¬ (k ∈ keysOf es) := fun hm => h (by simp [hm])
    rw [dictDel_cons, if_neg hk, ih h']

theorem length_dictDel {α : Type} {m : List (String × α)} {k : String}
    (hmem : k ∈ keysOf m) (hnd : (keysOf m).Nodup) :
    (dictDel m k).length + 1 = m.length := by
  induction m with
  | nil => simp at hmem
  | cons e es ih =>
    rw [keysOf_cons, List.nodup_cons] at hnd
    rw [dictDel_cons]
    by_cases hk : e.1 = k
    · have hes : ¬ (k ∈ keysOf es) := hk ▸ hnd.1
      rw [if_pos hk, dictDel_not_mem hes]
      simp
    · have h' : k ∈ keysOf es := by
        rcases List.mem_cons.1 (by simpa using hmem) with h1 | h2
        · exact absurd h1.symm hk
        · exact h2
      rw [if_neg hk]
      have := ih h' hnd.2
      simp only [List.length_cons]
      omega

theorem dictGet_dictDel_ne {α : Type} (m : List (String × α)) {k k' : String}
    (h : ¬ (k' = k)) : dictGet (dictDel m k) k' = dictGet m k' := by
  induction m with
  | nil => rfl
  | cons e es ih =>
    rw [dictDel_cons]
    by_cases hk : e.1 = k
    · have hek : ¬ (e.1 = k') := fun he => h (by rw [← he, hk])
      rw [if_pos hk, ih, dictGet_cons, if_neg hek]
    · rw [if_neg hk, dictGet_cons, dictGet_cons, ih]

/-- Running the deletion loop over present, pairwise-distinct ids succeeds
and removes exactly the entries with those keys. -/
theorem delAll_spec {m : List (String × CanvasNode)} {ids : List String}
    (hnd : (keysOf m).Nodup) (hids : ids.Nodup)
    (hsub : ∀ i ∈ ids, i ∈ keysOf m) :
    delAll m ids = some (m.filter (fun e => ¬ (e.1 ∈ ids))) ∧
      (m.filter (fun e => ¬ (e.1 ∈ ids))).length + ids.length = m.length := by
  induction ids generalizing m with
  | nil => simp [delAll]
  | cons i rest ih =>
    rw [List.nodup_cons] at hids
    have hi : i ∈ keysOf m := hsub i (List.mem_cons_self i rest)
    have hmem : dictMem m i = true := by
      rw [dictMem, dictGet_isSome_iff]
      exact hi
    have hsub' : ∀ j ∈ rest, j ∈ keysOf (dictDel m i) := by
      intro j hj
      rw [keysOf_dictDel, List.mem_filter]
      refine ⟨hsub j (List.mem_cons_of_mem _ hj), ?_⟩
      simp only [decide_eq_true_eq]
      intro he
      exact hids.1 (he ▸ hj)
    have hnd' : (keysOf (dictDel m i)).Nodup := nodup_keysOf_dictDel i hnd
    have := ih hnd' hids.2 hsub'
    rw [delAll]
    simp only [hmem, if_true]
    have hfilter : (dictDel m i).filter (fun e => ¬ (e.1 ∈ rest)) =
        m.filter (fun e => ¬ (e.1 ∈ i :: rest)) := by
      rw [dictDel, List.filter_filter]
      congr 1
      funext e
      by_cases h1 : e.1 = i <;> by_cases h2 : e.1 ∈ rest <;>
        simp [h1, h2, List.mem_cons]
    have hlen := length_dictDel hi hnd
    rw [hfilter] at this
    refine ⟨this.1, ?_⟩
    have := this.2
    simp only [List.length_cons]
    omega

/-! ### Set-model lemmas -/

theorem mem_setInsert {l : List String} {x y : String} :
    x ∈ setInsert l y ↔ x = y ∨ x ∈ l := by
  by_cases h : y ∈ l
  · simp only [setInsert, h, if_true]
    constructor
    · exact Or.inr
    · intro hx
      rcases hx with hx | hx
      · exact hx ▸ h
      · exact hx
  · simp [setInsert, h, List.mem_append, or_comm]

theorem nodup_setInsert {l : List String} (y : String) (h : l.Nodup) :
    (setInsert l y).Nodup := by
  by_cases hy : y ∈ l
  · simpa [setInsert, hy]
  · rw [setInsert, if_neg hy]
    rw [List.nodup_append]
    refine ⟨h, List.nodup_singleton y, fun a ha hb => ?_⟩
    rw [List.mem_singleton] at hb
    exact hy (hb ▸ ha)

theorem setUnion_nil (l : List String) : setUnion l [] = l := rfl

theorem setUnion_cons (l : List String) (y : String) (ys : List String) :
    setUnion l (y :: ys) = setUnion (setInsert l y) ys := rfl

theorem mem_setUnion {l' l : List String} {x : String} :
    x ∈ setUnion l l' ↔ x ∈ l ∨ x ∈ l' := by
  induction l' generalizing l with
  | nil => simp [setUnion_nil]
  | cons y ys ih =>
    rw [setUnion_cons]
    constructor
    · intro h
      rcases ih.1 h with h1 | h2
      · rcases mem_setInsert.1 h1 with h3 | h4
        · exact Or.inr (by simp [h3])
        · exact Or.inl h4
      · exact Or.inr (List.mem_cons_of_mem _ h2)
    · intro h
      rcases h with h | h
      · exact ih.2 (Or.inl (mem_setInsert.2 (Or.inr h)))
      · rcases List.mem_cons.1 h with h1 | h2
        · exact ih.2 (Or.inl (mem_setInsert.2 (Or.inl h1)))
        · exact ih.2 (Or.inr h2)

theorem nodup_setUnion {l' l : List String} (h : l.Nodup) :
    (setUnion l l').Nodup := by
  induction l' generalizing l with
  | nil => simpa [setUnion_nil]
  | cons y ys ih =>
    rw [setUnion_cons]
    exact ih (nodup_setInsert y h)

/-! ### Tree invariants

The invariants of §3 of the specification: unique dict keys, nodes stored
under their own id, bidirectional parent/child consistency, and acyclicity
of the child relation (witnessed by a rank function increasing from parent
to child). -/

/-- A node map for this development. -/
abbrev NodeMap := List (String × CanvasNode)

/-- Every parent reference of the entry resolves and the entry is
registered in its parent's children list. -/
def parentLinked (m : NodeMap) (e : String × CanvasNode) : Prop :=
  ∀ p, e.2.parent_id = some p →
    ∃ f ∈ m, f.1 = p ∧ e.1 ∈ f.2.children_ids

/-- Boolean check for `parentLinked`. -/
def parentLinkedB (m : NodeMap) (e : String × CanvasNode) : Bool :=
  match e.2.parent_id with
  | none => true
  | some p =>
    m.any (fun f => decide (f.1 = p) && decide (e.1 ∈ f.2.children_ids))

theorem parentLinked_iff {m : NodeMap} {e : String × CanvasNode} :
    parentLinked m e ↔ parentLinkedB m e = true := by
  unfold parentLinked parentLinkedB
  cases hp : e.2.parent_id with
  | none => simp [hp]
  | some p => simp [hp, List.any_eq_true, and_assoc]

instance {m : NodeMap} {e : String × CanvasNode} :
    Decidable (parentLinked m e) :=
  decidable_of_iff _ parentLinked_iff.symm

/-- The tree invariants of a node map.  Keys are the generated nonempty
ids, unique; nodes sit under their own id; parent/child references are
bidirectionally consistent; the child relation is acyclic, witnessed by a
rank function increasing from parent to child. -/
structure Inv (m : NodeMap) : Prop where
  nodupKeys : (keysOf m).Nodup
  keysNonempty : ∀ e ∈ m, ¬ (e.1 = "")
  keyId : ∀ e ∈ m, e.2.id = e.1
  parentOk : ∀ e ∈ m, parentLinked m e
  childOk : ∀ e ∈ m, ∀ c ∈ e.2.children_ids,
    ∃ f ∈ m, f.1 = c ∧ f.2.parent_id = some e.1
  ranked : ∃ r : String → Nat,
    ∀ e ∈ m, ∀ c ∈ e.2.children_ids, r e.1 < r c

theorem Inv.get_keyId {m : NodeMap} (hinv : Inv m) {k : String}
    {n : CanvasNode} (h : dictGet m k = some n) : n.id = k :=
  hinv.keyId (k, n) (dictGet_mem h)

theorem Inv.parent_get {m : NodeMap} (hinv : Inv m) {k : String}
    {n : CanvasNode} {p : String} (h : dictGet m k = some n)
    (hp : n.parent_id = some p) :
    ∃ pn, dictGet m p = some pn ∧ k ∈ pn.children_ids := by
  obtain ⟨f, hf, hfp, hmem⟩ := hinv.parentOk (k, n) (dictGet_mem h) p hp
  refine ⟨f.2, ?_, hmem⟩
  have : (p, f.2) ∈ m := by
    have : f = (f.1, f.2) := rfl
    rw [← hfp]
    exact this ▸ hf
  exact mem_dictGet_of_nodup hinv.nodupKeys this

theorem Inv.child_get {m : NodeMap} (hinv : Inv m) {k : String}
    {n : CanvasNode} {c : String} (h : dictGet m k = some n)
    (hc : c ∈ n.children_ids) :
    ∃ cn, dictGet m c = some cn ∧ cn.parent_id = some k := by
  obtain ⟨f, hf, hfc, hpar⟩ := hinv.childOk (k, n) (dictGet_mem h) c hc
  refine ⟨f.2, ?_, hpar⟩
  have : (c, f.2) ∈ m := by
    have : f = (f.1, f.2) := rfl
    rw [← hfc]
    exact this ▸ hf
  exact mem_dictGet_of_nodup hinv.nodupKeys this

theorem Inv.child_key_mem {m : NodeMap} (hinv : Inv m) {k : String}
    {n : CanvasNode} {c : String} (h : dictGet m k = some n)
    (hc : c ∈ n.children_ids) : c ∈ keysOf m := by
  obtain ⟨cn, hcn, _⟩ := hinv.child_get h hc
  exact dictGet_key_mem hcn

/-- Reachability through `children_ids` in one or more steps. -/
inductive Reach (m : NodeMap) : String → String → Prop where
  | child {x y : String} {n : CanvasNode}
      (hx : dictGet m x = some n) (hy : y ∈ n.children_ids) : Reach m x y
  | step {x y z : String} {n : CanvasNode} (hxy : Reach m x y)
      (hy : dictGet m y = some n) (hz : z ∈ n.children_ids) : Reach m x z

theorem Reach.trans {m : NodeMap} {x y z : String} (h1 : Reach m x y)
    (h2 : Reach m y z) : Reach m x z := by
  induction h2 with
  | child hx hy => exact Reach.step h1 hx hy
  | step _ hy hz ih => exact Reach.step ih hy hz

/-- Left decomposition of a reachability path: the first step is into a
child of the start node. -/
theorem Reach.head {m : NodeMap} {x y : String} (h : Reach m x y) :
    ∃ n, dictGet m x = some n ∧
      ∃ c ∈ n.children_ids, (c = y ∨ Reach m c y) := by
  induction h with
  | child hx hy => exact ⟨_, hx, _, hy, Or.inl rfl⟩
  | step _ hy hz ih =>
    obtain ⟨n, hx, c, hc, hcy⟩ := ih
    refine ⟨n, hx, c, hc, Or.inr ?_⟩
    rcases hcy with h1 | h2
    · exact h1 ▸ Reach.child hy hz
    · exact Reach.trans h2 (Reach.child hy hz)

theorem Reach.rank_lt {m : NodeMap} {r : String → Nat}
    (hr : ∀ e ∈ m, ∀ c ∈ e.2.children_ids, r e.1 < r c) {x y : String}
    (h : Reach m x y) : r x < r y := by
  induction h with
  | child hx hy => exact hr _ (dictGet_mem hx) _ hy
  | step _ hy hz ih => exact lt_trans ih (hr _ (dictGet_mem hy) _ hz)

theorem Reach.key_mem {m : NodeMap} (hinv : Inv m) {x y : String}
    (h : Reach m x y) : y ∈ keysOf m := by
  induction h with
  | child hx hy => exact hinv.child_key_mem hx hy
  | step _ hy hz _ => exact hinv.child_key_mem hy hz

theorem Reach.irrefl {m : NodeMap} (hinv : Inv m) {x : String} :
    ¬ Reach m x x := by
  obtain ⟨r, hr⟩ := hinv.ranked
  intro h
  exact lt_irrefl (r x) (Reach.rank_lt hr h)

/-! ### Correctness of the descendant collection -/

theorem collectChildren_nil {m : NodeMap} {fuel : Nat} {acc : List String} :
    collectChildren m fuel [] acc = some acc := by
  rw [collectChildren]

theorem collectChildren_cons {m : NodeMap} {fuel : Nat} {c : String}
    {rest acc : List String} :
    collectChildren m fuel (c :: rest) acc =
      match _collect_descendants m fuel c with
      | none => none
      | some ds =>
        collectChildren m fuel rest (setUnion (setInsert acc c) ds) := by
  rw [collectChildren]

theorem collect_zero {m : NodeMap} {x : String} :
    _collect_descendants m 0 x = none := by
  rw [_collect_descendants]

theorem collect_succ {m : NodeMap} {fuel : Nat} {x : String} :
    _collect_descendants m (fuel + 1) x =
      match dictGet m x with
      | none => some []
      | some node => collectChildren m fuel node.children_ids [] := by
  rw [_collect_descendants]

theorem collectChildren_acc_sub {m : NodeMap} {fuel : Nat}
    {l acc out : List String}
    (h : collectChildren m fuel l acc = some out) : ∀ y ∈ acc, y ∈ out := by
  induction l generalizing acc with
  | nil =>
    rw [collectChildren_nil] at h
    cases h
    exact fun y hy => hy
  | cons c rest ih =>
    rw [collectChildren_cons] at h
    rcases hds : _collect_descendants m fuel c with _ | ds
    · rw [hds] at h
      cases h
    · rw [hds] at h
      intro y hy
      exact ih h y (mem_setUnion.2 (Or.inl (mem_setInsert.2 (Or.inr hy))))

theorem collectChildren_parts {m : NodeMap} {fuel : Nat}
    {l acc out : List String}
    (h : collectChildren m fuel l acc = some out) :
    ∀ c ∈ l, c ∈ out ∧ ∃ ds, _collect_descendants m fuel c = some ds ∧
      ∀ y ∈ ds, y ∈ out := by
  induction l generalizing acc with
  | nil => intro c hc; simp at hc
  | cons c0 rest ih =>
    rw [collectChildren_cons] at h
    rcases hds : _collect_descendants m fuel c0 with _ | ds
    · rw [hds] at h
      cases h
    · rw [hds] at h
      intro c hc
      rcases List.mem_cons.1 hc with h1 | h2
      · subst h1
        refine ⟨?_, ds, hds, ?_⟩
        · exact collectChildren_acc_sub h _
            (mem_setUnion.2 (Or.inl (mem_setInsert.2 (Or.inl rfl))))
        · intro y hy
          exact collectChildren_acc_sub h _ (mem_setUnion.2 (Or.inr hy))
      · exact ih h c h2

theorem collectChildren_mem_cases {m : NodeMap} {fuel : Nat}
    {l acc out : List String}
    (h : collectChildren m fuel l acc = some out) :
    ∀ y ∈ out, y ∈ acc ∨ ∃ c ∈ l, (y = c ∨
      ∃ ds, _collect_descendants m fuel c = some ds ∧ y ∈ ds) := by
  induction l generalizing acc with
  | nil =>
    rw [collectChildren_nil] at h
    cases h
    exact fun y hy => Or.inl hy
  | cons c0 rest ih =>
    rw [collectChildren_cons] at h
    rcases hds : _collect_descendants m fuel c0 with _ | ds
    · rw [hds] at h
      cases h
    · rw [hds] at h
      intro y hy
      rcases ih h y hy with h1 | ⟨c, hc, h2⟩
      · rcases mem_setUnion.1 h1 with h3 | h4
        · rcases mem_setInsert.1 h3 with h5 | h6
          · exact Or.inr ⟨c0, List.mem_cons_self _ _, Or.inl h5⟩
          · exact Or.inl h6
        · exact Or.inr ⟨c0, List.mem_cons_self _ _, Or.inr ⟨ds, hds, h4⟩⟩
      · exact Or.inr ⟨c, List.mem_cons_of_mem _ hc, h2⟩

theorem collectChildren_nodup {m : NodeMap} {fuel : Nat}
    {l acc out : List String} (hacc : acc.Nodup)
    (h : collectChildren m fuel l acc = some out) : out.Nodup := by
  induction l generalizing acc with
  | nil =>
    rw [collectChildren_nil] at h
    cases h
    exact hacc
  | cons c rest ih =>
    rw [collectChildren_cons] at h
    rcases hds : _collect_descendants m fuel c with _ | ds
    · rw [hds] at h
      cases h
    · rw [hds] at h
      exact ih (nodup_setUnion (nodup_setInsert c hacc)) h

/-- Everything collected is reachable. -/
theorem collect_sound {m : NodeMap} :
    ∀ {fuel : Nat} {x : String} {out : List String},
      _collect_descendants m fuel x = some out →
      ∀ y ∈ out, Reach m x y := by
  intro fuel
  induction fuel with
  | zero => intro x out h; rw [collect_zero] at h; cases h
  | succ f ih =>
    intro x out h y hy
    rw [collect_succ] at h
    rcases hget : dictGet m x with _ | n
    · rw [hget] at h
      cases h
      simp at hy
    · rw [hget] at h
      rcases collectChildren_mem_cases h y hy with h1 | ⟨c, hc, h2⟩
      · simp at h1
      · rcases h2 with h3 | ⟨ds, hds, hyds⟩
        · exact h3 ▸ Reach.child hget hc
        · exact Reach.trans (Reach.child hget hc) (ih hds y hyds)

/-- A successful collection is complete: fuel exhaustion produces `none`
rather than truncation, so `some` means every reachable id was gathered. -/
theorem collect_complete {m : NodeMap} :
    ∀ {fuel : Nat} {x : String} {out : List String},
      _collect_descendants m fuel x = some out →
      ∀ y, Reach m x y → y ∈ out := by
  intro fuel
  induction fuel with
  | zero => intro x out h; rw [collect_zero] at h; cases h
  | succ f ih =>
    intro x out h y hr
    obtain ⟨n, hx, c, hc, hcy⟩ := Reach.head hr
    rw [collect_succ, hx] at h
    obtain ⟨hcout, ds, hds, hsub⟩ := collectChildren_parts h c hc
    rcases hcy with h1 | h2
    · exact h1 ▸ hcout
    · exact hsub y (ih hds y h2)

theorem collectChildren_success {m : NodeMap} {fuel : Nat}
    {l : List String}
    (h : ∀ c ∈ l, (_collect_descendants m fuel c).isSome = true) :
    ∀ acc, (collectChildren m fuel l acc).isSome = true := by
  induction l with
  | nil => intro acc; rw [collectChildren_nil]; rfl
  | cons c rest ih =>
    intro acc
    rw [collectChildren_cons]
    rcases hds : _collect_descendants m fuel c with _ | ds
    · have := h c (List.mem_cons_self _ _)
      rw [hds] at this
      cases this
    · exact ih (fun c' hc' => h c' (List.mem_cons_of_mem _ hc')) _

/-- Under the invariants the recursion cannot run out of fuel: the number
of keys ranked above the start node shrinks at every level. -/
theorem collect_success_aux {m : NodeMap} (hinv : Inv m) (r : String → Nat)
    (hr : ∀ e ∈ m, ∀ c ∈ e.2.children_ids, r e.1 < r c) :
    ∀ fuel x,
      ((keysOf m).toFinset.filter (fun k => r x < r k)).card < fuel →
      (_collect_descendants m fuel x).isSome = true := by
  intro fuel
  induction fuel with
  | zero => intro x h; omega
  | succ f ih =>
    intro x hcard
    rw [collect_succ]
    rcases hget : dictGet m x with _ | n
    · rfl
    · refine collectChildren_success (fun c hc => ?_) []
      have hxc : r x < r c := hr (x, n) (dictGet_mem hget) c hc
      have hckey : c ∈ (keysOf m).toFinset :=
        List.mem_toFinset.2 (hinv.child_key_mem hget hc)
      have hsub : (keysOf m).toFinset.filter (fun k => r c < r k) ⊂
          (keysOf m).toFinset.filter (fun k => r x < r k) := by
        constructor
        · intro k hk
          rw [Finset.mem_filter] at hk ⊢
          exact ⟨hk.1, lt_trans hxc hk.2⟩
        · intro hcontra
          have hcmem : c ∈ (keysOf m).toFinset.filter (fun k => r x < r k) :=
            Finset.mem_filter.2 ⟨hckey, hxc⟩
          have := hcontra hcmem
          rw [Finset.mem_filter] at this
          exact lt_irrefl (r c) this.2
      have hlt := Finset.card_lt_card hsub
      exact ih c (by omega)

/-- With fuel `|nodes| + 1`, the collection of the source succeeds on any
map satisfying the invariants. -/
theorem collect_success {m : NodeMap} (hinv : Inv m) (x : String) :
    (_collect_descendants m (m.length + 1) x).isSome = true := by
  obtain ⟨r, hr⟩ := hinv.ranked
  refine collect_success_aux hinv r hr _ x ?_
  have h1 : ((keysOf m).toFinset.filter (fun k => r x < r k)).card ≤
      (keysOf m).toFinset.card := Finset.card_filter_le _ _
  have h2 : (keysOf m).toFinset.card ≤ (keysOf m).length :=
    (keysOf m).toFinset_card_le
  have h3 : (keysOf m).length = m.length := List.length_map _ _
  omega

/-! ### Termination of the upward walk of `set_focus` -/

theorem walkUp_zero {m : NodeMap} {k : String} : walkUp m 0 k = none := by
  rw [walkUp]

theorem walkUp_succ {m : NodeMap} {fuel : Nat} {current : String} :
    walkUp m (fuel + 1) current =
      if current = "" then some []
      else
        match dictGet m current with
        | none => none
        | some n =>
          (walkUp m fuel (n.parent_id.getD "")).map
            (fun p => current :: p) := by
  rw [walkUp]

/-- Ranks strictly decrease walking from child to parent, so the walk hits
a falsy id after at most as many steps as there are keys. -/
theorem walkUp_success_aux {m : NodeMap} (hinv : Inv m) (r : String → Nat)
    (hr : ∀ e ∈ m, ∀ c ∈ e.2.children_ids, r e.1 < r c) :
    ∀ fuel k, k ∈ keysOf m →
      ((keysOf m).toFinset.filter (fun j => r j < r k)).card + 2 ≤ fuel →
      (walkUp m fuel k).isSome = true := by
  intro fuel
  induction fuel with
  | zero => intro k _ h; omega
  | succ f ih =>
    intro k hk hcard
    rw [walkUp_succ]
    by_cases hke : k = ""
    · simp [hke]
    · rw [if_neg hke]
      rcases hget : dictGet m k with _ | n
      · rw [dictGet_eq_none_iff] at hget
        exact absurd hk hget
      · dsimp only
        rcases hp : n.parent_id with _ | p
        · rcases f with _ | f'
          · omega
          · simp only [Option.getD_none]
            rw [walkUp_succ, if_pos rfl]
            rfl
      -- parent id present
        · by_cases hpe : p = ""
          · rcases f with _ | f'
            · omega
            · simp only [Option.getD_some]
              rw [hpe, walkUp_succ, if_pos rfl]
              rfl
          · obtain ⟨pn, hpn, hmem⟩ := hinv.parent_get hget hp
            have hpk : p ∈ keysOf m := dictGet_key_mem hpn
            have hrpk : r p < r k := by
              have := hr (p, pn) (dictGet_mem hpn) k hmem
              exact this
            have hsub : (keysOf m).toFinset.filter (fun j => r j < r p) ⊂
                (keysOf m).toFinset.filter (fun j => r j < r k) := by
              constructor
              · intro j hj
                rw [Finset.mem_filter] at hj ⊢
                exact ⟨hj.1, lt_trans hj.2 hrpk⟩
              · intro hcontra
                have hpmem : p ∈
                    (keysOf m).toFinset.filter (fun j => r j < r k) :=
                  Finset.mem_filter.2 ⟨List.mem_toFinset.2 hpk, hrpk⟩
                have := hcontra hpmem
                rw [Finset.mem_filter] at this
                exact lt_irrefl (r p) this.2
            have hlt := Finset.card_lt_card hsub
            have := ih p hpk (by omega)
            simp only [Option.getD_some]
            rcases hwu : walkUp m f p with _ | path
            · rw [hwu] at this
              cases this
            · rfl

/-- The upward walk succeeds with the fuel used by `set_focus` on any map
satisfying the invariants, for any present start key. -/
theorem walkUp_success {m : NodeMap} (hinv : Inv m) {k : String}
    (hk : k ∈ keysOf m) : (walkUp m (m.length + 1) k).isSome = true := by
  obtain ⟨r, hr⟩ := hinv.ranked
  refine walkUp_success_aux hinv r hr _ k hk ?_
  have hkf : k ∈ (keysOf m).toFinset := List.mem_toFinset.2 hk
  have hsub : (keysOf m).toFinset.filter (fun j => r j < r k) ⊆
      (keysOf m).toFinset.erase k := by
    intro j hj
    rw [Finset.mem_filter] at hj
    refine Finset.mem_erase.2 ⟨fun he => ?_, hj.1⟩
    exact lt_irrefl (r k) (he ▸ hj.2)
  have h1 := Finset.card_le_card hsub
  have h2 := Finset.card_erase_of_mem hkf
  have h3 : (keysOf m).toFinset.card ≤ (keysOf m).length :=
    (keysOf m).toFinset_card_le
  have h4 : (keysOf m).length = m.length := List.length_map _ _
  have h5 : 0 < (keysOf m).toFinset.card := Finset.card_pos.2 ⟨k, hkf⟩
  omega

/-- Entries of a map with unique keys are determined by their key. -/
theorem mem_key_unique {m : NodeMap} (hnd : (keysOf m).Nodup)
    {a b : String × CanvasNode} (ha : a ∈ m) (hb : b ∈ m)
    (hk : a.1 = b.1) : a = b := by
  obtain ⟨ak, av⟩ := a
  obtain ⟨bk, bv⟩ := b
  simp only at hk
  subst hk
  have h1 : dictGet m ak = some av := mem_dictGet_of_nodup hnd ha
  have h2 : dictGet m ak = some bv := mem_dictGet_of_nodup hnd hb
  rw [h1] at h2
  injection h2 with h3
  rw [h3]

/-- Two registrations of the same child id have the same parent. -/
theorem parent_unique {m : NodeMap} (hinv : Inv m)
    {e f : String × CanvasNode} (he : e ∈ m) (hf : f ∈ m) {d : String}
    (hd1 : d ∈ e.2.children_ids) (hd2 : d ∈ f.2.children_ids) :
    e.1 = f.1 := by
  obtain ⟨g1, hg1, hg1k, hg1p⟩ := hinv.childOk e he d hd1
  obtain ⟨g2, hg2, hg2k, hg2p⟩ := hinv.childOk f hf d hd2
  have hgg := mem_key_unique hinv.nodupKeys hg1 hg2 (by rw [hg1k, hg2k])
  rw [hgg] at hg1p
  rw [hg1p] at hg2p
  injection hg2p

/-- Filtering a map by excluded keys, as the deletion loop produces. -/
theorem dictGet_delFilter {m : NodeMap} {ids : List String} {q : String} :
    dictGet (m.filter (fun e => ¬ (e.1 ∈ ids))) q =
      if q ∈ ids then none else dictGet m q := by
  induction m with
  | nil => by_cases h : q ∈ ids <;> simp [h]
  | cons e es ih =>
    rw [List.filter_cons]
    by_cases he : e.1 ∈ ids
    · rw [if_neg (by simp [he])]
      rw [ih, dictGet_cons]
      by_cases hq : q ∈ ids
      · simp [hq]
      · have hne : ¬ (e.1 = q) := fun hh => hq (hh ▸ he)
        simp [hq, hne]
    · rw [if_pos (by simp [he])]
      rw [dictGet_cons, dictGet_cons]
      by_cases hh : e.1 = q
      · have hq : ¬ (q ∈ ids) := fun hmem => he (hh ▸ hmem)
        simp [hh, hq]
      · rw [if_neg hh, if_neg hh, ih]

theorem keysOf_delFilter {m : NodeMap} {ids : List String} :
    keysOf (m.filter (fun e => ¬ (e.1 ∈ ids))) =
      (keysOf m).filter (fun k => ¬ (k ∈ ids)) := by
  induction m with
  | nil => simp
  | cons e es ih =>
    rw [List.filter_cons, keysOf_cons, List.filter_cons]
    by_cases he : e.1 ∈ ids
    · rw [if_neg (by simp [he]), if_neg (by simp [he]), ih]
    · rw [if_pos (by simp [he]), if_pos (by simp [he]), keysOf_cons, ih]

theorem mem_delFilter {m : NodeMap} {ids : List String}
    {e : String × CanvasNode} :
    e ∈ m.filter (fun f => ¬ (f.1 ∈ ids)) ↔ e ∈ m ∧ ¬ (e.1 ∈ ids) := by
  simp [List.mem_filter]

/-- Updating an existing key preserves the entry count. -/
theorem length_dictSet_mem {m : NodeMap} {k : String} (v : CanvasNode)
    (h : k ∈ keysOf m) : (dictSet m k v).length = m.length := by
  have h1 : (keysOf (dictSet m k v)).length = (keysOf m).length := by
    rw [keysOf_dictSet_mem m k v h]
  simpa [keysOf, List.length_map] using h1

/-- A successful collection is duplicate-free. -/
theorem collect_nodup {m : NodeMap} {fuel : Nat} {x : String}
    {out : List String} (h : _collect_descendants m fuel x = some out) :
    out.Nodup := by
  rcases fuel with _ | f
  · rw [collect_zero] at h
    cases h
  · rw [collect_succ] at h
    rcases hget : dictGet m x with _ | n
    · rw [hget] at h
      cases h
      exact List.nodup_nil
    · rw [hget] at h
      exact collectChildren_nodup List.nodup_nil h

/-- Tail decomposition of a reachability path: the target is a direct
child of the start or of an intermediate reachable node. -/
theorem Reach.last {m : NodeMap} {x d : String} (h : Reach m x d) :
    ∃ t nt, (t = x ∨ Reach m x t) ∧ dictGet m t = some nt ∧
      d ∈ nt.children_ids := by
  cases h with
  | child hx hy => exact ⟨x, _, Or.inl rfl, hx, hy⟩
  | step hxy hy hz => exact ⟨_, _, Or.inr hxy, hy, hz⟩

/-- `set_focus` changes at most the active path. -/
theorem set_focus_fields {c c' : Canvas} {t : String}
    (h : c.set_focus t = some c') :
    c'.nodes = c.nodes ∧ c'.root_id = c.root_id ∧
      c'.undo_stack = c.undo_stack ∧ c'.redo_stack = c.redo_stack ∧
      c'.name = c.name ∧ c'.created_at = c.created_at ∧
      c'.compress_length = c.compress_length ∧
      c'.source_directory = c.source_directory ∧
      c'.source_file = c.source_file := by
  rw [Canvas.set_focus] at h
  by_cases hm : dictMem c.nodes t
  · rw [if_neg (by simp [hm])] at h
    rcases hwu : walkUp c.nodes (c.nodes.length + 1) t with _ | path
    · rw [hwu] at h
      cases h
    · rw [hwu] at h
      cases h
      exact ⟨rfl, rfl, rfl, rfl, rfl, rfl, rfl, rfl, rfl⟩
  · rw [if_pos (by simp [hm])] at h
    cases h
    exact ⟨rfl, rfl, rfl, rfl, rfl, rfl, rfl, rfl, rfl⟩

/-- Map-level specification of the deletion cascade: the collected set is
exactly the reachable descendant set, deletion succeeds, removes exactly
that subtree plus the node, leaves no deleted id in any remaining
children list, preserves the invariants, and leaves every remaining
node's `links_to` untouched. -/
theorem delete_map_spec {m : NodeMap} (hinv : Inv m) {x : String}
    {node : CanvasNode} (hget : dictGet m x = some node) :
    ∃ D,
      _collect_descendants m (m.length + 1) x = some D ∧
      (∀ y, y ∈ D ↔ Reach m x y) ∧ D.Nodup ∧
      ∃ m', delAll (deleteParentFix m node.parent_id (setInsert D x))
          (setInsert D x) = some m' ∧
      m'.length + (D.length + 1) = m.length ∧
      (∀ d ∈ setInsert D x, ∀ e ∈ m', ¬ d ∈ e.2.children_ids) ∧
      Inv m' ∧
      (∀ e ∈ m', ∃ e0 ∈ m, e0.1 = e.1 ∧ e.2.links_to = e0.2.links_to) := by
  have hndk := hinv.nodupKeys
  have hsome := collect_success hinv x
  obtain ⟨D, hD⟩ : ∃ D, _collect_descendants m (m.length + 1) x = some D := by
    rcases h : _collect_descendants m (m.length + 1) x with _ | D
    · rw [h] at hsome
      cases hsome
    · exact ⟨D, rfl⟩
  have hDre : ∀ y, y ∈ D ↔ Reach m x y :=
    fun y => ⟨collect_sound hD y, collect_complete hD y⟩
  have hDnd := collect_nodup hD
  have hxD : ¬ x ∈ D := fun h => Reach.irrefl hinv ((hDre x).1 h)
  have htd_mem : ∀ d, d ∈ setInsert D x ↔ d = x ∨ d ∈ D :=
    fun d => mem_setInsert
  have htd_nd : (setInsert D x).Nodup := nodup_setInsert x hDnd
  have htd_len : (setInsert D x).length = D.length + 1 := by
    rw [setInsert, if_neg hxD]
    simp
  have htd_keys : ∀ d ∈ setInsert D x, d ∈ keysOf m := by
    intro d hd
    rcases (htd_mem d).1 hd with h | h
    · exact h ▸ dictGet_key_mem hget
    · exact Reach.key_mem hinv ((hDre d).1 h)
  have hxmem : (x, node) ∈ m := dictGet_mem hget
  -- children of a collected node are collected
  have hreach_td : ∀ t ∈ setInsert D x, ∀ nt, dictGet m t = some nt →
      ∀ ch ∈ nt.children_ids, ch ∈ setInsert D x := by
    intro t ht nt hnt ch hch
    rcases (htd_mem t).1 ht with h | h
    · subst h
      exact (htd_mem ch).2 (Or.inr ((hDre ch).2 (Reach.child hnt hch)))
    · exact (htd_mem ch).2
        (Or.inr ((hDre ch).2 (Reach.step ((hDre t).1 h) hnt hch)))
  -- key fact: a collected id registered as someone's child pins that
  -- someone down
  have factK : ∀ e ∈ m, ∀ d ∈ setInsert D x, d ∈ e.2.children_ids →
      (d = x ∧ node.parent_id = some e.1) ∨ e.1 ∈ setInsert D x := by
    intro e he d hd hdc
    rcases (htd_mem d).1 hd with h | h
    · subst h
      obtain ⟨f, hf, hfk, hfp⟩ := hinv.childOk e he d hdc
      have hfx := mem_key_unique hndk hf hxmem (by rw [hfk])
      rw [hfx] at hfp
      exact Or.inl ⟨rfl, hfp⟩
    · obtain ⟨t, nt, hto, hnt, hdt⟩ := Reach.last ((hDre d).1 h)
      have htd : t ∈ setInsert D x := by
        rcases hto with h1 | h2
        · exact (htd_mem t).2 (Or.inl h1)
        · exact (htd_mem t).2 (Or.inr ((hDre t).2 h2))
      have := parent_unique hinv he (dictGet_mem hnt) hdc hdt
      exact Or.inr (this ▸ htd)
  -- parent of a survivor survives
  have factP : ∀ e ∈ m, ∀ q, e.2.parent_id = some q →
      q ∈ setInsert D x → e.1 ∈ setInsert D x := by
    intro e he q hq hqtd
    obtain ⟨f, hf, hfk, hmemf⟩ := hinv.parentOk e he q hq
    have hgetf : dictGet m q = some f.2 := by
      have : f = (f.1, f.2) := rfl
      rw [← hfk]
      exact mem_dictGet_of_nodup hndk (this ▸ hf)
    exact hreach_td q hqtd f.2 hgetf e.1 hmemf
  -- now split on the parent of the deleted node
  rcases hp : node.parent_id with _ | p
  · -- no parent: the parent-fix step is the identity
    have hdel := @delAll_spec m (setInsert D x) hndk htd_nd htd_keys
    refine ⟨D, hD, hDre, hDnd,
      m.filter (fun e => ¬ (e.1 ∈ setInsert D x)), ?_, ?_, ?_, ?_, ?_⟩
    · rw [deleteParentFix]
      exact hdel.1
    · have := hdel.2
      omega
    · intro d hd e he hdc
      rw [mem_delFilter] at he
      rcases factK e he.1 d hd hdc with ⟨_, habs⟩ | h2
      · rw [hp] at habs
        cases habs
      · exact he.2 h2
    · constructor
      · rw [keysOf_delFilter]
        exact hndk.filter _
      · intro e he
        rw [mem_delFilter] at he
        exact hinv.keysNonempty e he.1
      · intro e he
        rw [mem_delFilter] at he
        exact hinv.keyId e he.1
      · intro e he q hq
        rw [mem_delFilter] at he
        obtain ⟨f, hf, hfk, hmemf⟩ := hinv.parentOk e he.1 q hq
        have hqtd : ¬ q ∈ setInsert D x :=
          fun hqt => he.2 (factP e he.1 q hq hqt)
        exact ⟨f, mem_delFilter.2 ⟨hf, hfk ▸ hqtd⟩, hfk, hmemf⟩
      · intro e he c hc
        rw [mem_delFilter] at he
        obtain ⟨g, hg, hgk, hgp⟩ := hinv.childOk e he.1 c hc
        have hctd : ¬ c ∈ setInsert D x := by
          intro hct
          rcases factK e he.1 c hct hc with ⟨_, habs⟩ | h2
          · rw [hp] at habs
            cases habs
          · exact he.2 h2
        exact ⟨g, mem_delFilter.2 ⟨hg, hgk ▸ hctd⟩, hgk, hgp⟩
      · obtain ⟨r, hr⟩ := hinv.ranked
        refine ⟨r, fun e he c hc => ?_⟩
        rw [mem_delFilter] at he
        exact hr e he.1 c hc
    · intro e he
      rw [mem_delFilter] at he
      exact ⟨e, he.1, rfl, rfl⟩
  · -- the deleted node has a parent
    have hpinfo := hinv.parent_get hget hp
    obtain ⟨parent, hpget, hxchild⟩ := hpinfo
    have hpne : ¬ p = "" := by
      intro habs
      have := hinv.keysNonempty (p, parent) (dictGet_mem hpget)
      exact this habs
    have hpnot : ¬ p ∈ setInsert D x := by
      intro hptd
      rcases (htd_mem p).1 hptd with h | h
      · subst h
        rw [hget] at hpget
        injection hpget with hpp
        subst hpp
        exact Reach.irrefl hinv (Reach.child hget hxchild)
      · exact Reach.irrefl hinv
          (Reach.step ((hDre p).1 h) hpget hxchild)
    set kept := parent.children_ids.filter
      (fun cid => ¬ (cid ∈ setInsert D x)) with hkept
    set parent' : CanvasNode := { parent with children_ids := kept }
      with hparent'
    have hm1 : deleteParentFix m (some p) (setInsert D x) =
        dictSet m p parent' := by
      rw [deleteParentFix, if_neg hpne, hpget]
    have hpkeys : p ∈ keysOf m := dictGet_key_mem hpget
    have hm1keys : keysOf (dictSet m p parent') = keysOf m :=
      keysOf_dictSet_mem m p parent' hpkeys
    have hnd1 : (keysOf (dictSet m p parent')).Nodup := by
      rw [hm1keys]
      exact hndk
    have hkeysub : ∀ d ∈ setInsert D x,
        d ∈ keysOf (dictSet m p parent') := by
      intro d hd
      rw [hm1keys]
      exact htd_keys d hd
    have hdel := @delAll_spec (dictSet m p parent')
      (setInsert D x) hnd1 htd_nd hkeysub
    have hm1len : (dictSet m p parent').length = m.length :=
      length_dictSet_mem parent' hpkeys
    have hmem1 : ∀ {e : String × CanvasNode},
        e ∈ dictSet m p parent' ↔
          (e = (p, parent') ∨ (e ∈ m ∧ ¬ (e.1 = p))) :=
      fun {e} => mem_dictSet hndk p parent'
    have hkeptmem : ∀ {cid}, cid ∈ kept ↔
        cid ∈ parent.children_ids ∧ ¬ cid ∈ setInsert D x := by
      intro cid
      rw [hkept]
      simp [List.mem_filter]
    -- membership in the parent entry of m
    have hpm : (p, parent) ∈ m := dictGet_mem hpget
    refine ⟨D, hD, hDre, hDnd,
      (dictSet m p parent').filter (fun e => ¬ (e.1 ∈ setInsert D x)),
      ?_, ?_, ?_, ?_, ?_⟩
    · rw [hm1]
      exact hdel.1
    · have := hdel.2
      omega
    · intro d hd e he hdc
      rw [mem_delFilter] at he
      rcases hmem1.1 he.1 with h1 | ⟨h2, h3⟩
      · rw [h1] at hdc
        have := hkeptmem.1 hdc
        exact this.2 hd
      · rcases factK e h2 d hd hdc with ⟨_, hpe⟩ | h4
        · rw [hp] at hpe
          injection hpe with hpe'
          exact h3 hpe'.symm
        · exact he.2 h4
    · constructor
      · rw [keysOf_delFilter]
        exact hnd1.filter _
      · intro e he
        rw [mem_delFilter] at he
        rcases hmem1.1 he.1 with h1 | ⟨h2, _⟩
        · rw [h1]
          exact hpne
        · exact hinv.keysNonempty e h2
      · intro e he
        rw [mem_delFilter] at he
        rcases hmem1.1 he.1 with h1 | ⟨h2, _⟩
        · rw [h1]
          exact hinv.keyId (p, parent) hpm
        · exact hinv.keyId e h2
      · -- parentOk
        intro e he q hq
        rw [mem_delFilter] at he
        rcases hmem1.1 he.1 with h1 | ⟨h2, h3⟩
        · -- the rewritten parent entry
          have hqp : parent.parent_id = some q := by
            rw [h1] at hq
            exact hq
          obtain ⟨f, hf, hfk, hmemf⟩ :=
            hinv.parentOk (p, parent) hpm q hqp
          have hqtd : ¬ q ∈ setInsert D x := by
            intro hqt
            exact hpnot (factP (p, parent) hpm q hqp hqt)
          have hqnep : ¬ (q = p) := by
            intro habs
            have hfp := mem_key_unique hndk hf hpm (by rw [hfk, habs])
            rw [hfp] at hmemf
            exact Reach.irrefl hinv (Reach.child hpget hmemf)
          have hfm1 : f ∈ dictSet m p parent' :=
            hmem1.2 (Or.inr ⟨hf, by rw [hfk]; exact hqnep⟩)
          refine ⟨f, mem_delFilter.2 ⟨hfm1, by rw [hfk]; exact hqtd⟩,
            hfk, ?_⟩
          rw [h1]
          exact hmemf
        · -- an untouched entry
          obtain ⟨f, hf, hfk, hmemf⟩ := hinv.parentOk e h2 q hq
          have hqtd : ¬ q ∈ setInsert D x :=
            fun hqt => he.2 (factP e h2 q hq hqt)
          by_cases hqp : q = p
          · have hfp : f = (p, parent) :=
              mem_key_unique hndk hf hpm (by rw [hfk, hqp])
            have hmemf' : e.1 ∈ parent.children_ids := by
              rw [hfp] at hmemf
              exact hmemf
            refine ⟨(p, parent'),
              mem_delFilter.2 ⟨hmem1.2 (Or.inl rfl), hpnot⟩,
              hqp ▸ rfl, ?_⟩
            exact hkeptmem.2 ⟨hmemf', he.2⟩
          · have hfm1 : f ∈ dictSet m p parent' :=
              hmem1.2 (Or.inr ⟨hf, by rw [hfk]; exact hqp⟩)
            exact ⟨f, mem_delFilter.2 ⟨hfm1, by rw [hfk]; exact hqtd⟩,
              hfk, hmemf⟩
      · -- childOk
        intro e he c hc
        rw [mem_delFilter] at he
        rcases hmem1.1 he.1 with h1 | ⟨h2, h3⟩
        · -- the rewritten parent entry
          have hck : c ∈ parent.children_ids ∧ ¬ c ∈ setInsert D x := by
            rw [h1] at hc
            exact hkeptmem.1 hc
          obtain ⟨g, hg, hgk, hgp⟩ :=
            hinv.childOk (p, parent) hpm c hck.1
          have hcnep : ¬ (c = p) := by
            intro habs
            rw [habs] at hck
            exact Reach.irrefl hinv (Reach.child hpget hck.1)
          have hgm1 : g ∈ dictSet m p parent' :=
            hmem1.2 (Or.inr ⟨hg, by rw [hgk]; exact hcnep⟩)
          refine ⟨g, mem_delFilter.2 ⟨hgm1, by rw [hgk]; exact hck.2⟩,
            hgk, ?_⟩
          rw [h1]
          exact hgp
        · -- an untouched entry
          have hctd : ¬ c ∈ setInsert D x := by
            intro hct
            rcases factK e h2 c hct hc with ⟨_, hpe⟩ | h4
            · rw [hp] at hpe
              injection hpe with hpe'
              exact h3 hpe'.symm
            · exact he.2 h4
          obtain ⟨g, hg, hgk, hgp⟩ := hinv.childOk e h2 c hc
          by_cases hcp : c = p
          · have hgp' : g = (p, parent) :=
              mem_key_unique hndk hg hpm (by rw [hgk, hcp])
            refine ⟨(p, parent'),
              mem_delFilter.2 ⟨hmem1.2 (Or.inl rfl), hpnot⟩,
              hcp ▸ rfl, ?_⟩
            have : parent.parent_id = some e.1 := by
              rw [hgp'] at hgp
              exact hgp
            exact this
          · have hgm1 : g ∈ dictSet m p parent' :=
              hmem1.2 (Or.inr ⟨hg, by rw [hgk]; exact hcp⟩)
            exact ⟨g, mem_delFilter.2 ⟨hgm1, by rw [hgk]; exact hctd⟩,
              hgk, hgp⟩
      · -- ranked
        obtain ⟨r, hr⟩ := hinv.ranked
        refine ⟨r, fun e he c hc => ?_⟩
        rw [mem_delFilter] at he
        rcases hmem1.1 he.1 with h1 | ⟨h2, _⟩
        · have hck : c ∈ parent.children_ids := by
            rw [h1] at hc
            exact (hkeptmem.1 hc).1
          have : r p < r c := hr (p, parent) hpm c hck
          rw [h1]
          exact this
        · exact hr e h2 c hc
    · intro e he
      rw [mem_delFilter] at he
      rcases hmem1.1 he.1 with h1 | ⟨h2, _⟩
      · refine ⟨(p, parent), hpm, by rw [h1], ?_⟩
        rw [h1]
      · exact ⟨e, h2, rfl, rfl⟩

/-- `set_focus` returns normally on any canvas whose node map satisfies
the invariants. -/
theorem set_focus_success {c : Canvas} (hinv : Inv c.nodes) (t : String) :
    (c.set_focus t).isSome = true := by
  rw [Canvas.set_focus]
  by_cases hm : dictMem c.nodes t
  · rw [if_neg (by simp [hm])]
    have hk : t ∈ keysOf c.nodes := by
      rw [dictMem, dictGet_isSome_iff] at hm
      exact hm
    have := walkUp_success hinv hk
    rcases hwu : walkUp c.nodes (c.nodes.length + 1) t with _ | path
    · rw [hwu] at this
      cases this
    · rfl
  · rw [if_pos (by simp [hm])]
    rfl

/-- Canvas-level specification of `delete_node` on a present non-root
node under the tree invariants. -/
theorem delete_node_spec {c : Canvas} (hinv : Inv c.nodes) {x : String}
    {node : CanvasNode} (hget : dictGet c.nodes x = some node)
    (hroot : ¬ node.type = NodeType.ROOT) (ru : Bool) :
    ∃ D c',
      _collect_descendants c.nodes (c.nodes.length + 1) x = some D ∧
      (∀ y, y ∈ D ↔ Reach c.nodes x y) ∧ D.Nodup ∧
      c.delete_node x ru = some (node.parent_id, c') ∧
      c'.nodes.length + (D.length + 1) = c.nodes.length ∧
      (∀ d ∈ setInsert D x, ∀ e ∈ c'.nodes, ¬ d ∈ e.2.children_ids) ∧
      Inv c'.nodes ∧
      (∀ e ∈ c'.nodes, ∃ e0 ∈ c.nodes,
        e0.1 = e.1 ∧ e.2.links_to = e0.2.links_to) ∧
      c'.root_id = c.root_id ∧
      c'.undo_stack =
        (if ru then (c._push_undo).undo_stack else c.undo_stack) ∧
      c'.redo_stack = (if ru then [] else c.redo_stack) ∧
      c'.name = c.name ∧ c'.created_at = c.created_at ∧
      c'.compress_length = c.compress_length ∧
      c'.source_directory = c.source_directory ∧
      c'.source_file = c.source_file := by
  obtain ⟨D, hD, hDre, hDnd, m', hdel, hlen, hclean, hinv', hlinks⟩ :=
    delete_map_spec hinv hget
  have hccn : (if ru then c._push_undo else c).nodes = c.nodes := by
    cases ru <;> rfl
  have hcca : (if ru then c._push_undo else c).active_path =
      c.active_path := by
    cases ru <;> rfl
  have hccr : (if ru then c._push_undo else c).root_id = c.root_id := by
    cases ru <;> rfl
  have hccu : (if ru then c._push_undo else c).undo_stack =
      (if ru then (c._push_undo).undo_stack else c.undo_stack) := by
    cases ru <;> rfl
  have hccre : (if ru then c._push_undo else c).redo_stack =
      (if ru then [] else c.redo_stack) := by
    cases ru <;> rfl
  rw [Canvas.delete_node, hget]
  dsimp only
  rw [if_neg hroot, hccn, hD]
  dsimp only
  rw [hdel]
  dsimp only
  rw [hcca, hccr]
  by_cases hpath : x ∈ c.active_path
  · rw [if_pos hpath]
    set CC : Canvas :=
      { name := (if ru then c._push_undo else c).name
        nodes := m'
        root_id := c.root_id
        active_path := c.active_path
        created_at := (if ru then c._push_undo else c).created_at
        compress_length := (if ru then c._push_undo else c).compress_length
        source_directory :=
          (if ru then c._push_undo else c).source_directory
        source_file := (if ru then c._push_undo else c).source_file
        undo_stack := (if ru then c._push_undo else c).undo_stack
        redo_stack := (if ru then c._push_undo else c).redo_stack }
      with hCC
    have hfin : Inv CC.nodes := by
      rw [hCC]
      exact hinv'
    have hsucc := set_focus_success hfin
      (pyFirstTruthy node.parent_id c.root_id)
    rcases hsf : CC.set_focus (pyFirstTruthy node.parent_id c.root_id)
      with _ | c''
    · rw [hsf] at hsucc
      cases hsucc
    · obtain ⟨hn, hr, hu, hre, hname, hca, hcl, hsd, hsfi⟩ :=
        set_focus_fields hsf
      rw [hCC] at hn hr hu hre hname hca hcl hsd hsfi
      dsimp only at hn hr hu hre hname hca hcl hsd hsfi
      refine ⟨D, c'', rfl, hDre, hDnd, ?_, ?_, ?_, ?_, ?_, ?_, ?_, ?_,
        ?_, ?_, ?_, ?_, ?_⟩
      · rfl
      · rw [hn]
        exact hlen
      · intro d hd e he
        rw [hn] at he
        exact hclean d hd e he
      · rw [hn]
        exact hinv'
      · intro e he
        rw [hn] at he
        exact hlinks e he
      · rw [hr]
      · rw [hu, hccu]
      · rw [hre, hccre]
      · rw [hname]
        cases ru <;> rfl
      · rw [hca]
        cases ru <;> rfl
      · rw [hcl]
        cases ru <;> rfl
      · rw [hsd]
        cases ru <;> rfl
      · rw [hsfi]
        cases ru <;> rfl
  · rw [if_neg hpath]
    refine ⟨D, _, rfl, hDre, hDnd, rfl, hlen, hclean, hinv', hlinks,
      rfl, hccu, hccre, ?_, ?_, ?_, ?_, ?_⟩
    · cases ru <;> rfl
    · cases ru <;> rfl
    · cases ru <;> rfl
    · cases ru <;> rfl
    · cases ru <;> rfl

/-! ### Field characterizations of the mutating operations -/

theorem add_node_fields (c : Canvas) (n : CanvasNode) (ru : Bool) :
    (c.add_node n ru).nodes = addNodeChild (dictSet c.nodes n.id n) n ∧
    (c.add_node n ru).root_id =
      (if n.type = NodeType.ROOT then some n.id else c.root_id) ∧
    (c.add_node n ru).active_path =
      (if n.type = NodeType.ROOT then [n.id] else c.active_path) ∧
    (c.add_node n ru).undo_stack =
      (if ru then (c._push_undo).undo_stack else c.undo_stack) ∧
    (c.add_node n ru).redo_stack = (if ru then [] else c.redo_stack) ∧
    (c.add_node n ru).name = c.name ∧
    (c.add_node n ru).created_at = c.created_at ∧
    (c.add_node n ru).compress_length = c.compress_length ∧
    (c.add_node n ru).source_directory = c.source_directory ∧
    (c.add_node n ru).source_file = c.source_file := by
  rw [Canvas.add_node]
  dsimp only
  by_cases ht : n.type = NodeType.ROOT <;> cases ru <;>
    simp [ht, Canvas._push_undo]

/-- The undo stack after a push always ends with the snapshot of the
pushed state. -/
theorem push_undo_concat (c : Canvas) :
    ∃ u, (c._push_undo).undo_stack = u ++ [c._snapshot] := by
  rw [Canvas._push_undo]
  dsimp only
  generalize c.undo_stack = us
  by_cases h : MAX_UNDO_HISTORY < (us ++ [c._snapshot]).length
  · rw [if_pos h]
    rcases us with _ | ⟨s, ss⟩
    · simp [MAX_UNDO_HISTORY] at h
    · exact ⟨ss, by simp⟩
  · rw [if_neg h]
    exact ⟨us, rfl⟩

/-- Replacing a stored node by one with the same id, parent and children
(content or link edits) preserves the invariants. -/
theorem inv_dictSet_same {m : NodeMap} (hinv : Inv m) {k : String}
    {n : CanvasNode} (hget : dictGet m k = some n) (n' : CanvasNode)
    (hid : n'.id = n.id) (hch : n'.children_ids = n.children_ids)
    (hp : n'.parent_id = n.parent_id) : Inv (dictSet m k n') := by
  have hndk := hinv.nodupKeys
  have hkm : k ∈ keysOf m := dictGet_key_mem hget
  have hknm : (k, n) ∈ m := dictGet_mem hget
  have hmem : ∀ {e : String × CanvasNode},
      e ∈ dictSet m k n' ↔ (e = (k, n') ∨ (e ∈ m ∧ ¬ (e.1 = k))) :=
    fun {e} => mem_dictSet hndk k n'
  obtain ⟨r, hr⟩ := hinv.ranked
  have hknotself : ∀ {c}, c ∈ n.children_ids → ¬ (c = k) := by
    intro c hc habs
    have := hr (k, n) hknm c hc
    rw [habs] at this
    exact lt_irrefl _ this
  constructor
  · rw [keysOf_dictSet_mem m k n' hkm]
    exact hndk
  · intro e he
    rcases hmem.1 he with h1 | ⟨h2, _⟩
    · rw [h1]
      exact hinv.keysNonempty (k, n) hknm
    · exact hinv.keysNonempty e h2
  · intro e he
    rcases hmem.1 he with h1 | ⟨h2, _⟩
    · rw [h1]
      dsimp only
      rw [hid]
      exact hinv.keyId (k, n) hknm
    · exact hinv.keyId e h2
  · intro e he q hq
    rcases hmem.1 he with h1 | ⟨h2, h3⟩
    · -- the replaced entry
      have hq' : n.parent_id = some q := by
        rw [h1] at hq
        dsimp only at hq
        rw [hp] at hq
        exact hq
      obtain ⟨f, hf, hfk, hfc⟩ := hinv.parentOk (k, n) hknm q hq'
      have hfnk : ¬ (f.1 = k) := by
        intro habs
        have hfe : f = (k, n) := mem_key_unique hndk hf hknm habs
        rw [hfe] at hfc
        dsimp only at hfc
        exact hknotself hfc rfl
      refine ⟨f, hmem.2 (Or.inr ⟨hf, hfnk⟩), hfk, ?_⟩
      rw [h1]
      exact hfc
    · obtain ⟨f, hf, hfk, hfc⟩ := hinv.parentOk e h2 q hq
      by_cases hfk2 : f.1 = k
      · have hfe : f = (k, n) := mem_key_unique hndk hf hknm hfk2
        refine ⟨(k, n'), hmem.2 (Or.inl rfl), hfk2 ▸ hfk, ?_⟩
        dsimp only
        rw [hch]
        rw [hfe] at hfc
        exact hfc
      · exact ⟨f, hmem.2 (Or.inr ⟨hf, hfk2⟩), hfk, hfc⟩
  · intro e he cc hcc
    rcases hmem.1 he with h1 | ⟨h2, h3⟩
    · have hcc' : cc ∈ n.children_ids := by
        rw [h1] at hcc
        dsimp only at hcc
        rw [hch] at hcc
        exact hcc
      obtain ⟨g, hg, hgk, hgp⟩ := hinv.childOk (k, n) hknm cc hcc'
      have hgnk : ¬ (g.1 = k) := hgk ▸ hknotself hcc'
      refine ⟨g, hmem.2 (Or.inr ⟨hg, hgnk⟩), hgk, ?_⟩
      rw [h1]
      exact hgp
    · obtain ⟨g, hg, hgk, hgp⟩ := hinv.childOk e h2 cc hcc
      by_cases hgk2 : g.1 = k
      · have hge : g = (k, n) := mem_key_unique hndk hg hknm hgk2
        refine ⟨(k, n'), hmem.2 (Or.inl rfl), hgk2 ▸ hgk, ?_⟩
        dsimp only
        rw [hp]
        rw [hge] at hgp
        exact hgp
      · exact ⟨g, hmem.2 (Or.inr ⟨hg, hgk2⟩), hgk, hgp⟩
  · refine ⟨r, fun e he cc hcc => ?_⟩
    rcases hmem.1 he with h1 | ⟨h2, _⟩
    · have hcc' : cc ∈ n.children_ids := by
        rw [h1] at hcc
        dsimp only at hcc
        rw [hch] at hcc
        exact hcc
      have := hr (k, n) hknm cc hcc'
      rw [h1]
      exact this
    · exact hr e h2 cc hcc

/-- Adding a fresh node with an empty children list whose parent is
either absent or a truthy resolving id preserves the invariants. -/
theorem add_node_inv {m : NodeMap} (hinv : Inv m) {n : CanvasNode}
    (hfresh : ¬ n.id ∈ keysOf m) (hnid : ¬ n.id = "")
    (hch : n.children_ids = [])
    (hpar : n.parent_id = none ∨
      ∃ p, n.parent_id = some p ∧ ¬ p = "" ∧ p ∈ keysOf m) :
    Inv (addNodeChild (dictSet m n.id n) n) := by
  have hndk := hinv.nodupKeys
  obtain ⟨r, hr⟩ := hinv.ranked
  have hnd1 : (keysOf (dictSet m n.id n)).Nodup := by
    rw [keysOf_dictSet_not_mem m n.id n hfresh]
    simpa [List.nodup_append] using ⟨hndk, fun hk => hfresh hk⟩
  have hmem1 : ∀ {e : String × CanvasNode},
      e ∈ dictSet m n.id n ↔ (e = (n.id, n) ∨ (e ∈ m ∧ ¬ (e.1 = n.id))) :=
    fun {e} => mem_dictSet hndk n.id n
  -- every id appearing anywhere in the old map differs from the fresh id
  have hold_key : ∀ {e : String × CanvasNode}, e ∈ m → ¬ (e.1 = n.id) := by
    intro e he habs
    exact hfresh (habs ▸ List.mem_map.2 ⟨e, he, rfl⟩)
  have hold_child : ∀ {e : String × CanvasNode}, e ∈ m →
      ∀ {cc}, cc ∈ e.2.children_ids → ¬ (cc = n.id) := by
    intro e he cc hcc habs
    obtain ⟨g, hg, hgk, _⟩ := hinv.childOk e he cc hcc
    exact hold_key hg (by rw [hgk, habs])
  rcases hpar with hpnone | ⟨p, hpsome, hpne, hpkey⟩
  · -- no parent: only the fresh entry is added
    rw [addNodeChild, hpnone]
    constructor
    · exact hnd1
    · intro e he
      rcases hmem1.1 he with h1 | ⟨h2, _⟩
      · rw [h1]
        exact hnid
      · exact hinv.keysNonempty e h2
    · intro e he
      rcases hmem1.1 he with h1 | ⟨h2, _⟩
      · rw [h1]
      · exact hinv.keyId e h2
    · intro e he q hq
      rcases hmem1.1 he with h1 | ⟨h2, h3⟩
      · rw [h1] at hq
        dsimp only at hq
        rw [hpnone] at hq
        cases hq
      · obtain ⟨f, hf, hfk, hfc⟩ := hinv.parentOk e h2 q hq
        exact ⟨f, hmem1.2 (Or.inr ⟨hf, hold_key hf⟩), hfk, hfc⟩
    · intro e he cc hcc
      rcases hmem1.1 he with h1 | ⟨h2, _⟩
      · rw [h1] at hcc
        dsimp only at hcc
        rw [hch] at hcc
        cases hcc
      · obtain ⟨g, hg, hgk, hgp⟩ := hinv.childOk e h2 cc hcc
        exact ⟨g, hmem1.2 (Or.inr ⟨hg, hold_key hg⟩), hgk, hgp⟩
    · refine ⟨r, fun e he cc hcc => ?_⟩
      rcases hmem1.1 he with h1 | ⟨h2, _⟩
      · rw [h1] at hcc
        dsimp only at hcc
        rw [hch] at hcc
        cases hcc
      · exact hr e h2 cc hcc
  · -- a truthy resolving parent
    obtain ⟨pn, hpget⟩ : ∃ pn, dictGet m p = some pn := by
      rcases h : dictGet m p with _ | pn
      · rw [dictGet_eq_none_iff] at h
        exact absurd hpkey h
      · exact ⟨pn, rfl⟩
    have hppm : (p, pn) ∈ m := dictGet_mem hpget
    have hpnn : ¬ (p = n.id) := hold_key hppm
    have hget1 : dictGet (dictSet m n.id n) p = some pn := by
      rw [dictGet_dictSet_ne m n hpnn, hpget]
    have hnidpn : ¬ n.id ∈ pn.children_ids :=
      fun habs => hold_child hppm habs rfl
    rw [addNodeChild, hpsome]
    dsimp only
    rw [if_neg hpne, hget1]
    dsimp only
    rw [if_neg (by simpa using hnidpn)]
    set pn' : CanvasNode :=
      { pn with children_ids := pn.children_ids ++ [n.id] } with hpn'
    have hpk1 : p ∈ keysOf (dictSet m n.id n) := by
      rw [keysOf_dictSet_not_mem m n.id n hfresh]
      exact List.mem_append.2 (Or.inl hpkey)
    have hmem2 : ∀ {e : String × CanvasNode},
        e ∈ dictSet (dictSet m n.id n) p pn' ↔
          (e = (p, pn') ∨ (e ∈ dictSet m n.id n ∧ ¬ (e.1 = p))) :=
      fun {e} => mem_dictSet hnd1 p pn'
    -- membership of old entries (other than the parent) in the result
    have hold_mem : ∀ {e : String × CanvasNode}, e ∈ m → ¬ (e.1 = p) →
        e ∈ dictSet (dictSet m n.id n) p pn' := by
      intro e he hep
      exact hmem2.2 (Or.inr ⟨hmem1.2 (Or.inr ⟨he, hold_key he⟩), hep⟩)
    have hnew_mem : (n.id, n) ∈ dictSet (dictSet m n.id n) p pn' :=
      hmem2.2 (Or.inr ⟨hmem1.2 (Or.inl rfl), fun h => hpnn h.symm⟩)
    have hpar_mem : (p, pn') ∈ dictSet (dictSet m n.id n) p pn' :=
      hmem2.2 (Or.inl rfl)
    constructor
    · rw [keysOf_dictSet_mem _ p pn' hpk1]
      exact hnd1
    · intro e he
      rcases hmem2.1 he with h1 | ⟨h2, _⟩
      · rw [h1]
        exact hinv.keysNonempty (p, pn) hppm
      · rcases hmem1.1 h2 with h3 | ⟨h4, _⟩
        · rw [h3]
          exact hnid
        · exact hinv.keysNonempty e h4
    · intro e he
      rcases hmem2.1 he with h1 | ⟨h2, _⟩
      · rw [h1]
        exact hinv.keyId (p, pn) hppm
      · rcases hmem1.1 h2 with h3 | ⟨h4, _⟩
        · rw [h3]
        · exact hinv.keyId e h4
    · -- parentOk
      intro e he q hq
      rcases hmem2.1 he with h1 | ⟨h2, h3⟩
      · -- the updated parent entry
        have hq' : pn.parent_id = some q := by
          rw [h1] at hq
          exact hq
        obtain ⟨f, hf, hfk, hfc⟩ := hinv.parentOk (p, pn) hppm q hq'
        have hfnp : ¬ (f.1 = p) := by
          intro habs
          have hfe : f = (p, pn) := mem_key_unique hndk hf hppm habs
          rw [hfe] at hfc
          dsimp only at hfc
          have := hr (p, pn) hppm p hfc
          exact lt_irrefl _ this
        refine ⟨f, hold_mem hf hfnp, hfk, ?_⟩
        rw [h1]
        exact hfc
      · rcases hmem1.1 h2 with h3 | ⟨h4, _⟩
        · -- the fresh node: its parent is the updated parent entry
          have hq' : some p = some q := by
            rw [h3] at hq
            dsimp only at hq
            rw [hpsome] at hq
            exact hq
          injection hq' with hq''
          refine ⟨(p, pn'), hpar_mem, hq'', ?_⟩
          rw [h3, hpn']
          simp
        · -- an untouched old entry
          obtain ⟨f, hf, hfk, hfc⟩ := hinv.parentOk e h4 q hq
          by_cases hfp : f.1 = p
          · have hfe : f = (p, pn) := mem_key_unique hndk hf hppm hfp
            refine ⟨(p, pn'), hpar_mem, hfp ▸ hfk, ?_⟩
            rw [hpn']
            dsimp only
            rw [hfe] at hfc
            exact List.mem_append.2 (Or.inl hfc)
          · exact ⟨f, hold_mem hf hfp, hfk, hfc⟩
    · -- childOk
      intro e he cc hcc
      rcases hmem2.1 he with h1 | ⟨h2, h3⟩
      · -- the updated parent entry
        have hcc' : cc ∈ pn.children_ids ++ [n.id] := by
          rw [h1] at hcc
          exact hcc
        rcases List.mem_append.1 hcc' with hccold | hccnew
        · obtain ⟨g, hg, hgk, hgp⟩ := hinv.childOk (p, pn) hppm cc hccold
          have hgnp : ¬ (g.1 = p) := by
            intro habs
            have := hr (p, pn) hppm cc hccold
            rw [← hgk, habs] at this
            exact lt_irrefl _ this
          refine ⟨g, hold_mem hg hgnp, hgk, ?_⟩
          rw [h1]
          exact hgp
        · have hccn : cc = n.id := by simpa using hccnew
          refine ⟨(n.id, n), hnew_mem, hccn ▸ rfl, ?_⟩
          dsimp only
          rw [hpsome, h1]
      · rcases hmem1.1 h2 with h3 | ⟨h4, _⟩
        · rw [h3] at hcc
          dsimp only at hcc
          rw [hch] at hcc
          cases hcc
        · obtain ⟨g, hg, hgk, hgp⟩ := hinv.childOk e h4 cc hcc
          by_cases hgp2 : g.1 = p
          · have hge : g = (p, pn) := mem_key_unique hndk hg hppm hgp2
            refine ⟨(p, pn'), hpar_mem, hgp2 ▸ hgk, ?_⟩
            rw [hpn']
            dsimp only
            rw [hge] at hgp
            exact hgp
          · exact ⟨g, hold_mem hg hgp2, hgk, hgp⟩
    · -- ranked: give the fresh node a rank above its parent, above
      -- everything the old rank assigns below it
      refine ⟨fun k => if k = n.id then r p + 1 else r k, ?_⟩
      intro e he cc hcc
      dsimp only
      rcases hmem2.1 he with h1 | ⟨h2, h3⟩
      · have hcc' : cc ∈ pn.children_ids ++ [n.id] := by
          rw [h1] at hcc
          exact hcc
        have hep : e.1 = p := by rw [h1]
        rcases List.mem_append.1 hcc' with hccold | hccnew
        · have hccn : ¬ (cc = n.id) := hold_child hppm hccold
          rw [hep, if_neg (fun h => hpnn h), if_neg hccn]
          exact hr (p, pn) hppm cc hccold
        · have hccn : cc = n.id := by simpa using hccnew
          rw [hep, if_neg (fun h => hpnn h), hccn, if_pos rfl]
          omega
      · rcases hmem1.1 h2 with h3 | ⟨h4, _⟩
        · rw [h3] at hcc
          dsimp only at hcc
          rw [hch] at hcc
          cases hcc
        · have hen : ¬ (e.1 = n.id) := hold_key h4
          have hccn : ¬ (cc = n.id) := hold_child h4 hcc
          rw [if_neg hen, if_neg hccn]
          exact hr e h4 cc hcc

/-! ### Snapshot round-trip and undo/redo steps -/

theorem restoreNodes_map_to_dict (l : NodeMap) :
    restoreNodes (l.map (fun e => (e.1, e.2.to_dict))) = some l := by
  induction l with
  | nil => rfl
  | cons e es ih =>
    rw [restoreNodes] at ih ⊢
    rw [List.map_cons, List.mapM_cons]
    rw [CanvasNode.from_dict_to_dict]
    simp only [Option.map_some]
    rw [ih]
    rfl

theorem restore_snapshot_of_snapshot (c c0 : Canvas) :
    c._restore_snapshot c0._snapshot =
      some ({ c with
              nodes := c0.nodes
              root_id := c0.root_id
              active_path := c0.active_path }) := by
  rw [Canvas._restore_snapshot, Canvas._snapshot]
  dsimp only
  rw [restoreNodes_map_to_dict]
  rfl

/-- A snapshot depends only on the nodes, root pointer and active path. -/
theorem snapshot_congr {c d : Canvas} (hn : c.nodes = d.nodes)
    (hr : c.root_id = d.root_id) (ha : c.active_path = d.active_path) :
    c._snapshot = d._snapshot := by
  rw [Canvas._snapshot, Canvas._snapshot, hn, hr, ha]

theorem undo_empty {c : Canvas} (h : c.undo_stack = []) :
    Canvas.undo c = some (false, c) := by
  rw [Canvas.undo, h]
  rfl

theorem redo_empty {c : Canvas} (h : c.redo_stack = []) :
    Canvas.redo c = some (false, c) := by
  rw [Canvas.redo, h]
  rfl

/-- Undoing with a snapshot of a state on top of the stack restores that
state's observables, pops the stack, and records the current state for
redo. -/
theorem undo_step {c : Canvas} {u : List Snapshot} {c0 : Canvas}
    (hu : c.undo_stack = u ++ [c0._snapshot]) :
    ∃ c', Canvas.undo c = some (true, c') ∧
      c'.nodes = c0.nodes ∧ c'.root_id = c0.root_id ∧
      c'.active_path = c0.active_path ∧
      c'.undo_stack = u ∧ c'.redo_stack = c.redo_stack ++ [c._snapshot] ∧
      c'.name = c.name ∧ c'.created_at = c.created_at ∧
      c'.compress_length = c.compress_length ∧
      c'.source_directory = c.source_directory ∧
      c'.source_file = c.source_file := by
  rw [Canvas.undo, hu]
  rw [List.getLast?_concat]
  dsimp only
  rw [List.dropLast_concat]
  rw [restore_snapshot_of_snapshot _ c0]
  exact ⟨_, rfl, rfl, rfl, rfl, rfl, rfl, rfl, rfl, rfl, rfl, rfl⟩

/-- Redoing with a snapshot of a state on top of the redo stack restores
that state's observables; the push back onto the undo stack is not
capacity-bounded. -/
theorem redo_step {c : Canvas} {v : List Snapshot} {c0 : Canvas}
    (hv : c.redo_stack = v ++ [c0._snapshot]) :
    ∃ c', Canvas.redo c = some (true, c') ∧
      c'.nodes = c0.nodes ∧ c'.root_id = c0.root_id ∧
      c'.active_path = c0.active_path ∧
      c'.undo_stack = c.undo_stack ++ [c._snapshot] ∧ c'.redo_stack = v ∧
      c'.name = c.name ∧ c'.created_at = c.created_at ∧
      c'.compress_length = c.compress_length ∧
      c'.source_directory = c.source_directory ∧
      c'.source_file = c.source_file := by
  rw [Canvas.redo, hv]
  rw [List.getLast?_concat]
  dsimp only
  rw [List.dropLast_concat]
  rw [restore_snapshot_of_snapshot _ c0]
  exact ⟨_, rfl, rfl, rfl, rfl, rfl, rfl, rfl, rfl, rfl, rfl, rfl⟩

/-! ### Field characterizations of the remaining mutators -/

theorem update_content_fields {n : CanvasNode} {s : String} {l : Nat}
    {n' : CanvasNode} (h : n.update_content s l = Except.ok n') :
    n'.id = n.id ∧ n'.children_ids = n.children_ids ∧
      n'.parent_id = n.parent_id ∧ n'.links_to = n.links_to := by
  rw [CanvasNode.update_content] at h
  rcases hc : _compress s l with err | cc
  · rw [hc] at h
    cases h
  · rw [hc] at h
    injection h with h'
    rw [← h']
    exact ⟨rfl, rfl, rfl, rfl⟩

/-- A generic extraction for `Option.map f (X.set_focus t) = some res`. -/
theorem map_set_focus_some {α : Type} {X : Canvas} {t : String}
    {f : Canvas → α} {res : α}
    (h : Option.map f (X.set_focus t) = some res) :
    ∃ c'', X.set_focus t = some c'' ∧ res = f c'' := by
  rcases hx : X.set_focus t with _ | c''
  · rw [hx] at h
    cases h
  · rw [hx] at h
    injection h with h'
    exact ⟨c'', rfl, h'.symm⟩

theorem edit_node_unknown {c : Canvas} {id content : String}
    (h : dictGet c.nodes id = none) (ru : Bool) :
    c.edit_node id content ru = some (false, c) := by
  rw [Canvas.edit_node, h]

theorem edit_node_success_fields {c : Canvas} {id content : String}
    {node : CanvasNode} (hget : dictGet c.nodes id = some node)
    {res : Bool × Canvas} (h : c.edit_node id content = some res) :
    res.1 = true ∧
    (∃ node', node.update_content content c.compress_length =
        Except.ok node' ∧
      res.2.nodes = dictSet c.nodes id node') ∧
    res.2.root_id = c.root_id ∧ res.2.active_path = c.active_path ∧
    res.2.undo_stack = (c._push_undo).undo_stack ∧
    res.2.redo_stack = [] ∧
    res.2.name = c.name ∧ res.2.created_at = c.created_at ∧
    res.2.compress_length = c.compress_length ∧
    res.2.source_directory = c.source_directory ∧
    res.2.source_file = c.source_file := by
  rw [Canvas.edit_node, hget] at h
  dsimp only at h
  rw [show (if true = true then c._push_undo else c) = c._push_undo
    from rfl] at h
  rw [show (c._push_undo).compress_length = c.compress_length
    from rfl] at h
  rcases hupd : node.update_content content c.compress_length
    with err | node'
  · rw [hupd] at h
    cases h
  · rw [hupd] at h
    injection h with h'
    rw [← h']
    exact ⟨rfl, ⟨node', rfl, rfl⟩, rfl, rfl, rfl, rfl, rfl, rfl, rfl,
      rfl, rfl⟩

theorem add_link_missing {c : Canvas} {f t : String} (ru : Bool)
    (h : dictGet c.nodes f = none ∨ dictGet c.nodes t = none) :
    c.add_link f t ru = (false, c) := by
  rw [Canvas.add_link]
  rcases hf : dictGet c.nodes f with _ | nf <;>
    rcases ht : dictGet c.nodes t with _ | nt <;> try rfl
  rcases h with h | h
  · rw [hf] at h
    cases h
  · rw [ht] at h
    cases h

theorem add_link_self {c : Canvas} {f t : String} {nf nt : CanvasNode}
    (ru : Bool) (hf : dictGet c.nodes f = some nf)
    (ht : dictGet c.nodes t = some nt) (he : f = t) :
    c.add_link f t ru = (false, c) := by
  rw [Canvas.add_link, hf, ht]
  dsimp only
  rw [if_pos he]

theorem add_link_success_fields {c : Canvas} {f t : String}
    {nf nt : CanvasNode} (hf : dictGet c.nodes f = some nf)
    (ht : dictGet c.nodes t = some nt) (hne : ¬ f = t) :
    (c.add_link f t).1 = (nf.add_link t).1 ∧
    (c.add_link f t).2.nodes = dictSet c.nodes f (nf.add_link t).2 ∧
    (c.add_link f t).2.root_id = c.root_id ∧
    (c.add_link f t).2.active_path = c.active_path ∧
    (c.add_link f t).2.undo_stack = (c._push_undo).undo_stack ∧
    (c.add_link f t).2.redo_stack = [] ∧
    (c.add_link f t).2.name = c.name ∧
    (c.add_link f t).2.created_at = c.created_at ∧
    (c.add_link f t).2.compress_length = c.compress_length ∧
    (c.add_link f t).2.source_directory = c.source_directory ∧
    (c.add_link f t).2.source_file = c.source_file := by
  rw [Canvas.add_link, hf, ht]
  dsimp only
  rw [if_neg hne]
  exact ⟨rfl, rfl, rfl, rfl, rfl, rfl, rfl, rfl, rfl, rfl, rfl⟩

theorem remove_link_missing {c : Canvas} {f t : String} (ru : Bool)
    (h : dictGet c.nodes f = none) : c.remove_link f t ru = (false, c) := by
  rw [Canvas.remove_link, h]

theorem remove_link_found_fields {c : Canvas} {f t : String}
    {nf : CanvasNode} (hf : dictGet c.nodes f = some nf) :
    (c.remove_link f t).1 = (nf.remove_link t).1 ∧
    (c.remove_link f t).2.nodes = dictSet c.nodes f (nf.remove_link t).2 ∧
    (c.remove_link f t).2.root_id = c.root_id ∧
    (c.remove_link f t).2.active_path = c.active_path ∧
    (c.remove_link f t).2.undo_stack = (c._push_undo).undo_stack ∧
    (c.remove_link f t).2.redo_stack = [] ∧
    (c.remove_link f t).2.name = c.name ∧
    (c.remove_link f t).2.created_at = c.created_at ∧
    (c.remove_link f t).2.compress_length = c.compress_length ∧
    (c.remove_link f t).2.source_directory = c.source_directory ∧
    (c.remove_link f t).2.source_file = c.source_file := by
  rw [Canvas.remove_link, hf]
  exact ⟨rfl, rfl, rfl, rfl, rfl, rfl, rfl, rfl, rfl, rfl, rfl⟩

/-- Stack and metadata effects of a successful deletion of a present
non-root node. -/
theorem delete_node_stacks {c : Canvas} {id : String} {node : CanvasNode}
    (hget : dictGet c.nodes id = some node)
    (hroot : ¬ node.type = NodeType.ROOT) {res : Option String × Canvas}
    (h : c.delete_node id = some res) :
    res.2.undo_stack = (c._push_undo).undo_stack ∧
    res.2.redo_stack = [] ∧
    res.2.name = c.name ∧ res.2.created_at = c.created_at ∧
    res.2.compress_length = c.compress_length ∧
    res.2.source_directory = c.source_directory ∧
    res.2.source_file = c.source_file := by
  rw [Canvas.delete_node, hget] at h
  dsimp only at h
  rw [if_neg hroot] at h
  rw [show (if true = true then c._push_undo else c) = c._push_undo
    from rfl] at h
  rw [show (c._push_undo).nodes = c.nodes from rfl] at h
  rcases hcol : _collect_descendants c.nodes (c.nodes.length + 1) id
    with _ | D
  · rw [hcol] at h
    cases h
  · rw [hcol] at h
    dsimp only at h
    rcases hdel : delAll (deleteParentFix c.nodes node.parent_id
        (setInsert D id)) (setInsert D id) with _ | m'
    · rw [hdel] at h
      cases h
    · rw [hdel] at h
      dsimp only at h
      rw [show (c._push_undo).active_path = c.active_path from rfl] at h
      by_cases hpath : id ∈ c.active_path
      · rw [if_pos hpath] at h
        obtain ⟨c'', hsf, hres⟩ := map_set_focus_some h
        obtain ⟨hn, hr, hu, hre, hname, hca, hcl, hsd, hsfi⟩ :=
          set_focus_fields hsf
        rw [hres]
        exact ⟨hu.trans rfl, hre.trans rfl, hname.trans rfl,
          hca.trans rfl, hcl.trans rfl, hsd.trans rfl, hsfi.trans rfl⟩
      · rw [if_neg hpath] at h
        injection h with h'
        rw [← h']
        exact ⟨rfl, rfl, rfl, rfl, rfl, rfl, rfl⟩

/-! ### The mutating calls of the undo-symmetry property -/

/-- One mutating call. -/
inductive Mut where
  | addNode (n : CanvasNode)
  | deleteNode (id : String)
  | editNode (id content : String)
  | addLink (f t : String)
  | removeLink (f t : String)

/-- Run one mutating call, keeping only the canvas. -/
def applyMut (c : Canvas) : Mut → Option Canvas
  | .addNode n => some (c.add_node n)
  | .deleteNode id => (c.delete_node id).map (fun p => p.2)
  | .editNode id content => (c.edit_node id content).map (fun p => p.2)
  | .addLink f t => some (c.add_link f t).2
  | .removeLink f t => some (c.remove_link f t).2

/-- The call records an undo snapshot (its guards pass). -/
def Effective (c : Canvas) : Mut → Prop
  | .addNode _ => True
  | .deleteNode id =>
    ∃ n, dictGet c.nodes id = some n ∧ ¬ n.type = NodeType.ROOT
  | .editNode id _ => (dictGet c.nodes id).isSome = true
  | .addLink f t => (dictGet c.nodes f).isSome = true ∧
    (dictGet c.nodes t).isSome = true ∧ ¬ f = t
  | .removeLink f _ => (dictGet c.nodes f).isSome = true

/-- Every effective mutating call that returns normally has pushed the
pre-state snapshot, cleared the redo stack, and left the metadata
untouched. -/
theorem applyMut_stacks {c : Canvas} {mu : Mut} {c' : Canvas}
    (heff : Effective c mu) (happ : applyMut c mu = some c') :
    c'.undo_stack = (c._push_undo).undo_stack ∧ c'.redo_stack = [] ∧
    c'.name = c.name ∧ c'.created_at = c.created_at ∧
    c'.compress_length = c.compress_length ∧
    c'.source_directory = c.source_directory ∧
    c'.source_file = c.source_file := by
  cases mu with
  | addNode n =>
    rw [applyMut] at happ
    injection happ with h'
    obtain ⟨_, _, _, hu, hre, hname, hca, hcl, hsd, hsfi⟩ :=
      add_node_fields c n true
    rw [← h']
    exact ⟨hu.trans rfl, hre.trans rfl, hname, hca, hcl, hsd, hsfi⟩
  | deleteNode id =>
    obtain ⟨n, hget, hroot⟩ := heff
    rw [applyMut] at happ
    rcases hd : c.delete_node id with _ | res
    · rw [hd] at happ
      cases happ
    · rw [hd] at happ
      injection happ with h'
      rw [← h']
      exact delete_node_stacks hget hroot hd
  | editNode id content =>
    obtain ⟨n, hget⟩ := Option.isSome_iff_exists.1 heff
    rw [applyMut] at happ
    rcases he : c.edit_node id content with _ | res
    · rw [he] at happ
      cases happ
    · rw [he] at happ
      injection happ with h'
      obtain ⟨_, _, _, _, hu, hre, hname, hca, hcl, hsd, hsfi⟩ :=
        edit_node_success_fields hget he
      rw [← h']
      exact ⟨hu, hre, hname, hca, hcl, hsd, hsfi⟩
  | addLink f t =>
    obtain ⟨hf, ht, hne⟩ := heff
    obtain ⟨nf, hgf⟩ := Option.isSome_iff_exists.1 hf
    obtain ⟨nt, hgt⟩ := Option.isSome_iff_exists.1 ht
    rw [applyMut] at happ
    injection happ with h'
    obtain ⟨_, _, _, _, hu, hre, hname, hca, hcl, hsd, hsfi⟩ :=
      add_link_success_fields hgf hgt hne
    rw [← h']
    exact ⟨hu, hre, hname, hca, hcl, hsd, hsfi⟩
  | removeLink f t =>
    obtain ⟨nf, hgf⟩ := Option.isSome_iff_exists.1 heff
    rw [applyMut] at happ
    injection happ with h'
    obtain ⟨_, _, _, _, hu, hre, hname, hca, hcl, hsd, hsfi⟩ :=
      remove_link_found_fields (t := t) hgf
    rw [← h']
    exact ⟨hu, hre, hname, hca, hcl, hsd, hsfi⟩

/-- Below capacity, a push is a plain append. -/
theorem push_undo_no_evict {c : Canvas}
    (h : c.undo_stack.length + 1 ≤ MAX_UNDO_HISTORY) :
    (c._push_undo).undo_stack = c.undo_stack ++ [c._snapshot] := by
  rw [Canvas._push_undo]
  dsimp only
  rw [if_neg]
  rw [List.length_append]
  simp only [List.length_singleton]
  omega

/-- Calling `undo` a number of times in sequence. -/
def undoN : Nat → Canvas → Option Canvas
  | 0, c => some c
  | n + 1, c => (Canvas.undo c).bind (fun p => undoN n p.2)

/-- Calling `redo` a number of times in sequence. -/
def redoN : Nat → Canvas → Option Canvas
  | 0, c => some c
  | n + 1, c => (Canvas.redo c).bind (fun p => redoN n p.2)

theorem undoN_add (a b : Nat) (c : Canvas) :
    undoN (a + b) c = (undoN a c).bind (undoN b) := by
  induction a generalizing c with
  | zero =>
    rw [Nat.zero_add]
    rfl
  | succ a ih =>
    have hab : a + 1 + b = (a + b) + 1 := by omega
    rw [hab, undoN, undoN]
    rcases Canvas.undo c with _ | p
    · rfl
    · exact ih p.2

theorem redoN_add (a b : Nat) (c : Canvas) :
    redoN (a + b) c = (redoN a c).bind (redoN b) := by
  induction a generalizing c with
  | zero =>
    rw [Nat.zero_add]
    rfl
  | succ a ih =>
    have hab : a + 1 + b = (a + b) + 1 := by omega
    rw [hab, redoN, redoN]
    rcases Canvas.redo c with _ | p
    · rfl
    · exact ih p.2

/-- A run of mutating calls, each effective (pushing its snapshot) and
each returning normally. -/
inductive RunM : Canvas → List Mut → Canvas → Prop where
  | nil (c : Canvas) : RunM c [] c
  | cons {c c' c'' : Canvas} {mu : Mut} {M : List Mut}
      (heff : Effective c mu) (happ : applyMut c mu = some c')
      (hrun : RunM c' M c'') : RunM c (mu :: M) c''

/-- Undo symmetry below the capacity: after a run of effective mutating
calls that fits in the undo stack, undoing once per call restores the
pre-run nodes, root pointer and active path (and undo stack), and redoing
once per call restores the exact post-run state. -/
theorem undo_redo_symmetry {c : Canvas} {M : List Mut} {c' : Canvas}
    (hrun : RunM c M c')
    (hcap : c.undo_stack.length + M.length ≤ MAX_UNDO_HISTORY) :
    ∃ cu, undoN M.length c' = some cu ∧
      cu.nodes = c.nodes ∧ cu.root_id = c.root_id ∧
      cu.active_path = c.active_path ∧ cu.undo_stack = c.undo_stack ∧
      redoN M.length cu = some c' := by
  induction hrun with
  | nil c => exact ⟨c, rfl, rfl, rfl, rfl, rfl, rfl⟩
  | @cons c c1 c2 mu M heff happ hrun ih =>
    rw [List.length_cons] at hcap
    have hstacks := applyMut_stacks heff happ
    have hpush : (c._push_undo).undo_stack =
        c.undo_stack ++ [c._snapshot] :=
      push_undo_no_evict (by omega)
    have hc1u : c1.undo_stack = c.undo_stack ++ [c._snapshot] :=
      hstacks.1.trans hpush
    have hcap1 : c1.undo_stack.length + M.length ≤ MAX_UNDO_HISTORY := by
      rw [hc1u, List.length_append]
      simp only [List.length_singleton]
      omega
    obtain ⟨cu1, hundo, hn1, hr1, ha1, hu1, hredo⟩ := ih hcap1
    have hu1' : cu1.undo_stack = c.undo_stack ++ [c._snapshot] :=
      hu1.trans hc1u
    obtain ⟨cu, hueq, hn, hr, ha, huu, hur, hname, hca, hcl, hsd, hsfi⟩ :=
      undo_step hu1'
    have hulen : (mu :: M).length = M.length + 1 := by
      rw [List.length_cons]
    refine ⟨cu, ?_, hn.trans rfl, hr.trans rfl, ha.trans rfl, huu, ?_⟩
    · rw [hulen, undoN_add, hundo]
      simp only [Option.some_bind]
      rw [show undoN 1 cu1 = (Canvas.undo cu1).bind (fun p => undoN 0 p.2)
        from rfl]
      rw [hueq]
      rfl
    · -- redo once to get back to the intermediate state, then redo the
      -- rest of the run
      have hsnap : cu._snapshot = c._snapshot :=
        snapshot_congr hn hr ha
      have hredocu : cu.redo_stack = cu1.redo_stack ++ [cu1._snapshot] :=
        hur
      obtain ⟨cr, hreq, hrn, hrr, hra, hru, hrre, hrname, hrca, hrcl,
        hrsd, hrsfi⟩ := redo_step hredocu
      have hcr : cr = cu1 := by
        ext1
        · rw [hrname, hname]
        · exact hrn
        · exact hrr
        · exact hra
        · rw [hrca, hca]
        · rw [hrcl, hcl]
        · rw [hrsd, hsd]
        · rw [hrsfi, hsfi]
        · rw [hru, huu, hsnap, hu1']
        · exact hrre
      rw [hulen]
      have : M.length + 1 = 1 + M.length := by omega
      rw [this, redoN_add]
      rw [show redoN 1 cu = (Canvas.redo cu).bind (fun p => redoN 0 p.2)
        from rfl]
      rw [hreq]
      simp only [Option.some_bind]
      rw [show redoN 0 cr = some cr from rfl]
      simp only [Option.some_bind]
      rw [hcr]
      exact hredo

/-! ### The public operations and preservation of the invariants -/

theorem getLast?_mem {α : Type} : ∀ {l : List α} {a : α},
    l.getLast? = some a → a ∈ l := by
  intro l
  induction l with
  | nil => intro a h; cases h
  | cons x xs ih =>
    intro a h
    rcases xs with _ | ⟨y, ys⟩
    · rw [List.getLast?_singleton] at h
      injection h with h'
      rw [← h']
      exact List.mem_cons_self _ _
    · rw [List.getLast?_cons_cons] at h
      exact List.mem_cons_of_mem _ (ih h)

/-- Generic unfolding of a successful `undo`. -/
theorem undo_last_restore {c : Canvas} {s : Snapshot} {nm : NodeMap}
    (hlast : c.undo_stack.getLast? = some s)
    (hres : restoreNodes s.nodes = some nm) :
    Canvas.undo c = some (true,
      { c with
        nodes := nm
        root_id := s.root_id
        active_path := s.active_path
        undo_stack := c.undo_stack.dropLast
        redo_stack := c.redo_stack ++ [c._snapshot] }) := by
  rw [Canvas.undo, hlast]
  dsimp only
  rw [Canvas._restore_snapshot]
  dsimp only
  rw [hres]
  rfl

/-- Generic unfolding of a successful `redo`. -/
theorem redo_last_restore {c : Canvas} {s : Snapshot} {nm : NodeMap}
    (hlast : c.redo_stack.getLast? = some s)
    (hres : restoreNodes s.nodes = some nm) :
    Canvas.redo c = some (true,
      { c with
        nodes := nm
        root_id := s.root_id
        active_path := s.active_path
        undo_stack := c.undo_stack ++ [c._snapshot]
        redo_stack := c.redo_stack.dropLast }) := by
  rw [Canvas.redo, hlast]
  dsimp only
  rw [Canvas._restore_snapshot]
  dsimp only
  rw [hres]
  rfl

/-- A snapshot that deserializes back into an invariant-satisfying map. -/
def SnapOk (s : Snapshot) : Prop :=
  ∃ nm, restoreNodes s.nodes = some nm ∧ Inv nm

/-- The whole canvas state is sound: the live map and every stacked
snapshot satisfy the tree invariants. -/
def CanvasGood (c : Canvas) : Prop :=
  Inv c.nodes ∧ (∀ s ∈ c.undo_stack, SnapOk s) ∧
    (∀ s ∈ c.redo_stack, SnapOk s)

theorem snapOk_snapshot {c : Canvas} (h : Inv c.nodes) :
    SnapOk c._snapshot :=
  ⟨c.nodes, restoreNodes_map_to_dict c.nodes, h⟩

theorem push_good {c : Canvas} (hg : CanvasGood c) :
    ∀ s ∈ (c._push_undo).undo_stack, SnapOk s := by
  intro s hs
  rw [Canvas._push_undo] at hs
  dsimp only at hs
  have hs' : s ∈ c.undo_stack ++ [c._snapshot] := by
    by_cases h : MAX_UNDO_HISTORY <
        (c.undo_stack ++ [c._snapshot]).length
    · rw [if_pos h] at hs
      exact List.drop_subset _ _ hs
    · rw [if_neg h] at hs
      exact hs
  rcases List.mem_append.1 hs' with h1 | h2
  · exact hg.2.1 s h1
  · rw [List.mem_singleton] at h2
    rw [h2]
    exact snapOk_snapshot hg.1

theorem node_add_link_fields (nf : CanvasNode) (t : String) :
    (nf.add_link t).2.id = nf.id ∧
    (nf.add_link t).2.children_ids = nf.children_ids ∧
    (nf.add_link t).2.parent_id = nf.parent_id := by
  rw [CanvasNode.add_link]
  by_cases h : t ∈ nf.links_to <;> simp [h]

theorem node_remove_link_fields (nf : CanvasNode) (t : String) :
    (nf.remove_link t).2.id = nf.id ∧
    (nf.remove_link t).2.children_ids = nf.children_ids ∧
    (nf.remove_link t).2.parent_id = nf.parent_id := by
  rw [CanvasNode.remove_link]
  by_cases h : t ∈ nf.links_to <;> simp [h]

/-- One public canvas operation. -/
inductive PubOp where
  | addNode (n : CanvasNode)
  | deleteNode (id : String)
  | editNode (id content : String)
  | setFocus (id : String)
  | addLink (f t : String)
  | removeLink (f t : String)
  | undoOp
  | redoOp

/-- Run one public operation, keeping only the canvas (`none` models an
escaping exception). -/
def applyPubOp (c : Canvas) : PubOp → Option Canvas
  | .addNode n => some (c.add_node n)
  | .deleteNode id => (c.delete_node id).map (fun p => p.2)
  | .editNode id content => (c.edit_node id content).map (fun p => p.2)
  | .setFocus id => c.set_focus id
  | .addLink f t => some (c.add_link f t).2
  | .removeLink f t => some (c.remove_link f t).2
  | .undoOp => (Canvas.undo c).map (fun p => p.2)
  | .redoOp => (Canvas.redo c).map (fun p => p.2)

/-- Side conditions under which an operation preserves the invariants:
only `add_node` needs any — a fresh nonempty id, an empty children list,
and a parent reference that is absent or truthy and resolving. -/
def GoodOp (c : Canvas) : PubOp → Prop
  | .addNode n => ¬ n.id ∈ keysOf c.nodes ∧ ¬ n.id = "" ∧
    n.children_ids = [] ∧ (n.parent_id = none ∨
      ∃ p, n.parent_id = some p ∧ ¬ p = "" ∧ p ∈ keysOf c.nodes)
  | _ => True

/-- Every public operation that returns normally preserves soundness of
the whole canvas state. -/
theorem pubop_preserves_good {c : Canvas} {op : PubOp} {c' : Canvas}
    (hg : CanvasGood c) (hop : GoodOp c op)
    (happ : applyPubOp c op = some c') : CanvasGood c' := by
  cases op with
  | addNode n =>
    rw [applyPubOp] at happ
    injection happ with h'
    obtain ⟨hnodes, _, _, hu, hre, _, _, _, _, _⟩ := add_node_fields c n true
    obtain ⟨hfresh, hnid, hch, hpar⟩ := hop
    refine ⟨?_, ?_, ?_⟩
    · rw [← h', hnodes]
      exact add_node_inv hg.1 hfresh hnid hch hpar
    · intro s hs
      rw [← h'] at hs
      rw [hu] at hs
      exact push_good hg s (by simpa using hs)
    · intro s hs
      rw [← h'] at hs
      rw [hre] at hs
      simp at hs
  | deleteNode id =>
    rw [applyPubOp] at happ
    rcases hget : dictGet c.nodes id with _ | node
    · have hdel : c.delete_node id = some (none, c) := by
        rw [Canvas.delete_node, hget]
      rw [hdel] at happ
      injection happ with h'
      rw [← h']
      exact hg
    · by_cases hroot : node.type = NodeType.ROOT
      · have hdel : c.delete_node id = some (none, c) := by
          rw [Canvas.delete_node, hget]
          dsimp only
          rw [if_pos hroot]
        rw [hdel] at happ
        injection happ with h'
        rw [← h']
        exact hg
      · obtain ⟨D, cdel, _, _, _, hdel, _, _, hinv', _, _, hu, hre,
          _, _, _, _, _⟩ := delete_node_spec hg.1 hget hroot true
        rw [hdel] at happ
        injection happ with h'
        refine ⟨?_, ?_, ?_⟩
        · rw [← h']
          exact hinv'
        · intro s hs
          rw [← h'] at hs
          rw [hu] at hs
          exact push_good hg s (by simpa using hs)
        · intro s hs
          rw [← h'] at hs
          rw [hre] at hs
          simp at hs
  | editNode id content =>
    rw [applyPubOp] at happ
    rcases hget : dictGet c.nodes id with _ | node
    · rw [edit_node_unknown hget true] at happ
      injection happ with h'
      rw [← h']
      exact hg
    · rcases he : c.edit_node id content with _ | res
      · rw [he] at happ
        cases happ
      · rw [he] at happ
        injection happ with h'
        obtain ⟨_, ⟨node', hupd, hnodes⟩, _, _, hu, hre, _, _, _, _, _⟩ :=
          edit_node_success_fields hget he
        obtain ⟨hid, hch, hp, _⟩ := update_content_fields hupd
        refine ⟨?_, ?_, ?_⟩
        · rw [← h', hnodes]
          exact inv_dictSet_same hg.1 hget node' hid hch hp
        · intro s hs
          rw [← h'] at hs
          rw [hu] at hs
          exact push_good hg s hs
        · intro s hs
          rw [← h'] at hs
          rw [hre] at hs
          simp at hs
  | setFocus id =>
    rw [applyPubOp] at happ
    obtain ⟨hn, _, hu, hre, _, _, _, _, _⟩ := set_focus_fields happ
    exact ⟨hn ▸ hg.1, hu ▸ hg.2.1, hre ▸ hg.2.2⟩
  | addLink f t =>
    rw [applyPubOp] at happ
    injection happ with h'
    rcases hgf : dictGet c.nodes f with _ | nf
    · rw [add_link_missing true (Or.inl hgf)] at h'
      rw [← h']
      exact hg
    · rcases hgt : dictGet c.nodes t with _ | nt
      · rw [add_link_missing true (Or.inr hgt)] at h'
        rw [← h']
        exact hg
      · by_cases hne : f = t
        · rw [add_link_self true hgf hgt hne] at h'
          rw [← h']
          exact hg
        · obtain ⟨_, hnodes, _, _, hu, hre, _, _, _, _, _⟩ :=
            add_link_success_fields hgf hgt hne
          obtain ⟨hid, hch, hp⟩ := node_add_link_fields nf t
          refine ⟨?_, ?_, ?_⟩
          · rw [← h', hnodes]
            exact inv_dictSet_same hg.1 hgf _ hid hch hp
          · intro s hs
            rw [← h', hu] at hs
            exact push_good hg s hs
          · intro s hs
            rw [← h', hre] at hs
            simp at hs
  | removeLink f t =>
    rw [applyPubOp] at happ
    injection happ with h'
    rcases hgf : dictGet c.nodes f with _ | nf
    · rw [remove_link_missing true hgf] at h'
      rw [← h']
      exact hg
    · obtain ⟨_, hnodes, _, _, hu, hre, _, _, _, _, _⟩ :=
        remove_link_found_fields (t := t) hgf
      obtain ⟨hid, hch, hp⟩ := node_remove_link_fields nf t
      refine ⟨?_, ?_, ?_⟩
      · rw [← h', hnodes]
        exact inv_dictSet_same hg.1 hgf _ hid hch hp
      · intro s hs
        rw [← h', hu] at hs
        exact push_good hg s hs
      · intro s hs
        rw [← h', hre] at hs
        simp at hs
  | undoOp =>
    rw [applyPubOp] at happ
    rcases hlast : c.undo_stack.getLast? with _ | s
    · have : Canvas.undo c = some (false, c) := by
        rw [Canvas.undo, hlast]
      rw [this] at happ
      injection happ with h'
      rw [← h']
      exact hg
    · obtain ⟨nm, hres, hinvnm⟩ := hg.2.1 s (getLast?_mem hlast)
      rw [undo_last_restore hlast hres] at happ
      injection happ with h'
      refine ⟨?_, ?_, ?_⟩
      · rw [← h']
        exact hinvnm
      · intro t ht
        rw [← h'] at ht
        exact hg.2.1 t ((List.dropLast_sublist _).subset ht)
      · intro t ht
        rw [← h'] at ht
        rcases List.mem_append.1 ht with h1 | h2
        · exact hg.2.2 t h1
        · rw [List.mem_singleton] at h2
          rw [h2]
          exact snapOk_snapshot hg.1
  | redoOp =>
    rw [applyPubOp] at happ
    rcases hlast : c.redo_stack.getLast? with _ | s
    · have : Canvas.redo c = some (false, c) := by
        rw [Canvas.redo, hlast]
      rw [this] at happ
      injection happ with h'
      rw [← h']
      exact hg
    · obtain ⟨nm, hres, hinvnm⟩ := hg.2.2 s (getLast?_mem hlast)
      rw [redo_last_restore hlast hres] at happ
      injection happ with h'
      refine ⟨?_, ?_, ?_⟩
      · rw [← h']
        exact hinvnm
      · intro t ht
        rw [← h'] at ht
        rcases List.mem_append.1 ht with h1 | h2
        · exact hg.2.1 t h1
        · rw [List.mem_singleton] at h2
          rw [h2]
          exact snapOk_snapshot hg.1
      · intro t ht
        rw [← h'] at ht
        exact hg.2.2 t ((List.dropLast_sublist _).subset ht)

/-! ### Concrete canvases and helpers for the claims -/

/-- The active-path prefix strictly before the first occurrence of `x`;
the whole path when `x` does not occur (the loop of
`get_context_for_operation` never breaks then). -/
def pathBefore (x : String) : List String → List String
  | [] => []
  | p :: rest => if p = x then [] else p :: pathBefore x rest

theorem pathBefore_of_not_mem {x : String} :
    ∀ {path : List String}, ¬ x ∈ path → pathBefore x path = path := by
  intro path
  induction path with
  | nil => intro _; rfl
  | cons p rest ih =>
    intro h
    rw [pathBefore,
      if_neg (fun he => h (by rw [← he]; exact List.mem_cons_self _ _))]
    rw [ih (fun hm => h (List.mem_cons_of_mem _ hm))]

theorem ctxWalk_eq {m : NodeMap} {x : String} :
    ∀ {path : List String},
    (∀ p ∈ path, (dictGet m p).isSome = true) →
    ctxWalk m path x =
      some ((pathBefore x path).filterMap (fun q => dictGet m q)) := by
  intro path
  induction path with
  | nil => intro _; rfl
  | cons p rest ih =>
    intro h
    rw [ctxWalk, pathBefore]
    by_cases hpx : p = x
    · rw [if_pos hpx, if_pos hpx]
      rfl
    · rw [if_neg hpx, if_neg hpx]
      have hp : (dictGet m p).isSome = true := h p (List.mem_cons_self _ _)
      rcases hg : dictGet m p with _ | n
      · rw [hg] at hp
        cases hp
      · rw [ih (fun q hq => h q (List.mem_cons_of_mem _ hq))]
        rw [List.filterMap_cons]
        dsimp only
        rw [hg]
        rfl

theorem listSub_nil (l : List Char) : listSub [] l = true := by
  cases l <;> rfl

theorem pyIn_nil (s : String) : pyIn "" s = true := by
  rw [pyIn]
  exact listSub_nil s.data

/-- Run a list of mutating calls in sequence, keeping only the canvas. -/
def applyMutN : Canvas → List Mut → Option Canvas
  | c, [] => some c
  | c, mu :: rest => (applyMut c mu).bind (fun c2 => applyMutN c2 rest)

def nR : CanvasNode :=
  { id := "r"
    type := NodeType.ROOT
    content_compressed := "R"
    content_full := "root text"
    children_ids := ["a", "b"] }

def nA : CanvasNode :=
  { id := "a"
    type := NodeType.OPERATION
    content_compressed := "A"
    content_full := "alpha text"
    parent_id := some "r" }

def nB : CanvasNode :=
  { id := "b"
    type := NodeType.OPERATION
    content_compressed := "B"
    content_full := "beta text"
    parent_id := some "r"
    links_to := ["a", "zz"] }

/-- A three-node canvas: a root with two children, the second holding a
cross-link to its sibling and a dangling cross-link. -/
def cDemo : Canvas :=
  { name := "demo"
    nodes := [("r", nR), ("a", nA), ("b", nB)]
    root_id := some "r"
    active_path := ["r"] }

/-- `cDemo` after focusing node `a`. -/
def cDemoF : Canvas :=
  { cDemo with active_path := ["r", "a"] }

def rankDemo (k : String) : Nat := if k = "r" then 0 else 1

theorem invDemo : Inv cDemo.nodes :=
  ⟨by decide, by decide, by decide, by decide, by decide,
    ⟨rankDemo, by decide⟩⟩

def nR2 : CanvasNode :=
  { id := "r2"
    type := NodeType.ROOT
    content_compressed := "R2"
    content_full := "second root" }

def nDangling : CanvasNode :=
  { id := "x"
    type := NodeType.OPERATION
    content_compressed := "X"
    content_full := "dangling parent"
    parent_id := some "zz" }

def nSolo : CanvasNode :=
  { id := "r"
    type := NodeType.ROOT
    content_compressed := "R"
    content_full := "solo root" }

def nFree : CanvasNode :=
  { id := "f"
    type := NodeType.OPERATION
    content_compressed := "F"
    content_full := "free node" }

/-- A one-node canvas for the undo-capacity counterexample. -/
def cSolo : Canvas :=
  { name := "s"
    nodes := [("r", nSolo)]
    root_id := some "r"
    active_path := ["r"] }

/-- One effective mutation more than the undo stack can hold. -/
def mutsOver : List Mut :=
  Mut.addNode nFree :: List.replicate MAX_UNDO_HISTORY (Mut.addLink "r" "f")

/-- A malformed but internally consistent content string: bare JSON whose
summary field is a number. -/
def jsonBad : String := "\x7b\"summary\": 5\x7d"

/-! ### The claims -/

/-- C1: characterization of `get_context_for_operation` when every path id
resolves and the requested id is present: the returned context is the
nodes of the active path strictly before the first occurrence of the id,
followed by the node itself — and when the id is NOT on the active path
that prefix is the ENTIRE active path, not the empty prefix the spec
describes. -/
theorem C1_get_context_full_path {c : Canvas} {x : String} {nx : CanvasNode}
    (hall : ∀ p ∈ c.active_path, (dictGet c.nodes p).isSome = true)
    (hx : dictGet c.nodes x = some nx) :
    c.get_context_for_operation x =
      some ((pathBefore x c.active_path).filterMap
        (fun q => dictGet c.nodes q) ++ [nx]) ∧
    (¬ x ∈ c.active_path → pathBefore x c.active_path = c.active_path) := by
  refine ⟨?_, fun h => pathBefore_of_not_mem h⟩
  rw [Canvas.get_context_for_operation, ctxWalk_eq hall]
  dsimp only [Option.map]
  rw [hx]

/-- Witness for C1 at a concrete canvas and id. -/
theorem C1_get_context_witness :
    cDemo.get_context_for_operation "a" =
      some ((pathBefore "a" cDemo.active_path).filterMap
        (fun q => dictGet cDemo.nodes q) ++ [nA]) ∧
    (¬ "a" ∈ cDemo.active_path →
      pathBefore "a" cDemo.active_path = cDemo.active_path) :=
  C1_get_context_full_path (by decide) rfl

/-- Counterexample to C1 as stated: node `a` is present but off the
active path `[r]`, and the returned context is the path node followed by
`a` — not `[a]` alone. -/
theorem C1_off_path_counterexample :
    dictGet cDemo.nodes "a" = some nA ∧
    ¬ "a" ∈ cDemo.active_path ∧
    cDemo.get_context_for_operation "a" = some [nR, nA] ∧
    ¬ cDemo.get_context_for_operation "a" = some [nA] :=
  ⟨rfl, by decide, rfl, by decide⟩

/-- C2 (amended): under the tree invariants, deleting a present non-root
node with `k` reachable descendants removes exactly those `k + 1` nodes
and scrubs the deleted ids from every remaining children list, but every
remaining node keeps its `links_to` list verbatim — links to deleted
nodes dangle and are only filtered at read time. -/
theorem C2_delete_node_spec_links {c : Canvas} (hinv : Inv c.nodes)
    {x : String} {node : CanvasNode}
    (hget : dictGet c.nodes x = some node)
    (hroot : ¬ node.type = NodeType.ROOT) :
    ∃ D c',
      _collect_descendants c.nodes (c.nodes.length + 1) x = some D ∧
      c.delete_node x = some (node.parent_id, c') ∧
      c'.nodes.length + (D.length + 1) = c.nodes.length ∧
      (∀ d ∈ setInsert D x, ∀ e ∈ c'.nodes, ¬ d ∈ e.2.children_ids) ∧
      (∀ e ∈ c'.nodes, ∃ e0 ∈ c.nodes,
        e0.1 = e.1 ∧ e.2.links_to = e0.2.links_to) := by
  obtain ⟨D, c', hD, _, _, hdel, hlen, hclean, _, hlinks, _⟩ :=
    delete_node_spec hinv hget hroot true
  exact ⟨D, c', hD, hdel, hlen, hclean, hlinks⟩

/-- Witness for C2 at a concrete canvas: deleting leaf `a`. -/
theorem C2_delete_witness :
    ∃ D c',
      _collect_descendants cDemo.nodes (cDemo.nodes.length + 1) "a" =
        some D ∧
      cDemo.delete_node "a" = some (nA.parent_id, c') ∧
      c'.nodes.length + (D.length + 1) = cDemo.nodes.length ∧
      (∀ d ∈ setInsert D "a", ∀ e ∈ c'.nodes, ¬ d ∈ e.2.children_ids) ∧
      (∀ e ∈ c'.nodes, ∃ e0 ∈ cDemo.nodes,
        e0.1 = e.1 ∧ e.2.links_to = e0.2.links_to) :=
  @C2_delete_node_spec_links cDemo invDemo "a" nA rfl (by decide)

/-- Counterexample to C2 as stated: after deleting `a` (no descendants)
the node count drops by one, but the deleted id `a` still sits in the
remaining node `b` links list. -/
theorem C2_dangling_link_counterexample :
    cDemo.nodes.length = 3 ∧
    (cDemo.delete_node "a").map
      (fun p => (p.2.nodes.length,
        (dictGet p.2.nodes "b").map CanvasNode.links_to)) =
      some (2, some ["a", "zz"]) := by
  have hcol : _collect_descendants cDemo.nodes 4 "a" = some [] := by
    rw [show (4 : Nat) = 3 + 1 from rfl, collect_succ]
    rw [show dictGet cDemo.nodes "a" = some nA from rfl]
    dsimp only
    exact collectChildren_nil
  refine ⟨rfl, ?_⟩
  rw [Canvas.delete_node]
  rw [show dictGet cDemo.nodes "a" = some nA from rfl]
  dsimp only
  rw [if_neg (show ¬ nA.type = NodeType.ROOT by decide)]
  rw [show (if true = true then cDemo._push_undo else cDemo) =
    cDemo._push_undo from rfl]
  rw [show (cDemo._push_undo).nodes = cDemo.nodes from rfl]
  rw [show cDemo.nodes.length + 1 = 4 from rfl]
  rw [hcol]
  rfl

/-- C3 (amended): starting from a sound canvas, every public operation
that returns normally preserves soundness — in particular bidirectional
parent/child consistency — PROVIDED `add_node` is called with a fresh
nonempty id, an empty children list, and a parent reference that is
absent or resolves to an existing node; the unconditional claim fails on
a dangling parent reference. -/
theorem C3_pubop_parent_child {c : Canvas} {op : PubOp} {c' : Canvas}
    (hg : CanvasGood c) (hop : GoodOp c op)
    (happ : applyPubOp c op = some c') :
    CanvasGood c' ∧ ∀ e ∈ c'.nodes, parentLinked c'.nodes e := by
  have h := pubop_preserves_good hg hop happ
  exact ⟨h, h.1.parentOk⟩

/-- Witness for C3: focusing a node of the concrete canvas. -/
theorem C3_pubop_witness :
    CanvasGood cDemoF ∧ ∀ e ∈ cDemoF.nodes, parentLinked cDemoF.nodes e :=
  @C3_pubop_parent_child cDemo (PubOp.setFocus "a") cDemoF
    ⟨invDemo, fun _ hs => ((List.not_mem_nil _) hs).elim,
      fun _ hs => ((List.not_mem_nil _) hs).elim⟩ trivial rfl

/-- Counterexample to C3 as stated: adding a node whose parent id names
no existing node succeeds and leaves the new node with a dangling parent
reference, so parent/child consistency does not survive that call. -/
theorem C3_dangling_parent_counterexample :
    applyPubOp cDemo (PubOp.addNode nDangling) =
      some (cDemo.add_node nDangling) ∧
    dictGet (cDemo.add_node nDangling).nodes "x" = some nDangling ∧
    nDangling.parent_id = some "zz" ∧
    ¬ "zz" ∈ keysOf (cDemo.add_node nDangling).nodes ∧
    ¬ parentLinked (cDemo.add_node nDangling).nodes ("x", nDangling) :=
  ⟨rfl, rfl, rfl, by decide, by decide⟩

/-- C4 (amended): undo/redo symmetry holds for runs of effective mutating
calls that FIT the undo-stack capacity: undoing once per call restores
the pre-run nodes, root pointer, active path and undo stack, and redoing
once per call restores the exact post-run state.  Beyond the capacity
the oldest snapshot is evicted and the symmetry breaks. -/
theorem C4_undo_redo_bounded {c : Canvas} {M : List Mut} {c' : Canvas}
    (hrun : RunM c M c')
    (hcap : c.undo_stack.length + M.length ≤ MAX_UNDO_HISTORY) :
    ∃ cu, undoN M.length c' = some cu ∧
      cu.nodes = c.nodes ∧ cu.root_id = c.root_id ∧
      cu.active_path = c.active_path ∧ cu.undo_stack = c.undo_stack ∧
      redoN M.length cu = some c' :=
  undo_redo_symmetry hrun hcap

/-- Witness for C4: a one-call run on the concrete canvas. -/
theorem C4_undo_redo_witness :
    ∃ cu, undoN (List.length [Mut.addLink "r" "b"])
        ((cDemo.add_link "r" "b").2) = some cu ∧
      cu.nodes = cDemo.nodes ∧ cu.root_id = cDemo.root_id ∧
      cu.active_path = cDemo.active_path ∧
      cu.undo_stack = cDemo.undo_stack ∧
      redoN (List.length [Mut.addLink "r" "b"]) cu =
        some ((cDemo.add_link "r" "b").2) :=
  C4_undo_redo_bounded
    (RunM.cons ⟨rfl, rfl, by decide⟩ rfl (RunM.nil _)) (by decide)

set_option maxRecDepth 8192 in
/-- Counterexample to C4 as stated: 51 effective mutating calls on a
one-node canvas evict the oldest snapshot, and 51 undos bring the node
count back to 2, not to the original 1. -/
theorem C4_capacity_counterexample :
    mutsOver.length = MAX_UNDO_HISTORY + 1 ∧
    cSolo.nodes.length = 1 ∧
    ((applyMutN cSolo mutsOver).bind
      (undoN mutsOver.length)).map (fun cu => cu.nodes.length) =
      some 2 :=
  ⟨rfl, rfl, rfl⟩

/-- C5 (amended): both halves of the undo-recording discipline.  Every
effective call of the five mutating entry points — `add_node`,
`delete_node`, `edit_node`, `add_link`, `remove_link` (the constructors
of `Mut`) — that returns normally leaves an undo stack equal to the
pre-call stack with the deep pre-call snapshot of
`{nodes, root_id, active_path}` appended, the oldest entry evicted past
the capacity `MAX_UNDO_HISTORY = 50`, and leaves the redo stack cleared;
`set_focus` by contrast mutates only the active path: its node map, undo
stack, redo stack and root pointer are exactly those of the pre-call
canvas, so a focus change is never recorded for undo. -/
theorem C5_mutators_record_focus_does_not {c : Canvas} {mu : Mut}
    {c' : Canvas} {t : String} {cf : Canvas}
    (heff : Effective c mu) (happ : applyMut c mu = some c')
    (hsf : c.set_focus t = some cf) :
    c'.undo_stack =
      (if MAX_UNDO_HISTORY < (c.undo_stack ++ [c._snapshot]).length
        then (c.undo_stack ++ [c._snapshot]).drop 1
        else c.undo_stack ++ [c._snapshot]) ∧
    c'.redo_stack = [] ∧
    cf.nodes = c.nodes ∧ cf.undo_stack = c.undo_stack ∧
    cf.redo_stack = c.redo_stack ∧ cf.root_id = c.root_id := by
  obtain ⟨hu, hre, _⟩ := applyMut_stacks heff happ
  obtain ⟨hn, hr, hfu, hfre, _⟩ := set_focus_fields hsf
  exact ⟨hu, hre, hn, hfu, hfre, hr⟩

/-- Witness for C5 at the concrete canvas: one effective `add_link` push
beside one `set_focus` that records nothing. -/
theorem C5_mutators_record_witness :
    ((cDemo.add_link "r" "b").2).undo_stack =
      (if MAX_UNDO_HISTORY <
          (cDemo.undo_stack ++ [cDemo._snapshot]).length
        then (cDemo.undo_stack ++ [cDemo._snapshot]).drop 1
        else cDemo.undo_stack ++ [cDemo._snapshot]) ∧
    ((cDemo.add_link "r" "b").2).redo_stack = [] ∧
    cDemoF.nodes = cDemo.nodes ∧ cDemoF.undo_stack = cDemo.undo_stack ∧
    cDemoF.redo_stack = cDemo.redo_stack ∧
    cDemoF.root_id = cDemo.root_id :=
  @C5_mutators_record_focus_does_not cDemo (Mut.addLink "r" "b")
    ((cDemo.add_link "r" "b").2) "a" cDemoF ⟨rfl, rfl, by decide⟩ rfl rfl

/-- Counterexample to C5 as stated: `set_focus` changes the active path
but pushes nothing onto the undo stack, and the following `undo()`
returns `False` instead of restoring the prior path. -/
theorem C5_set_focus_counterexample :
    (cDemo.set_focus "a").map
      (fun c2 => (c2.active_path, c2.undo_stack,
        (Canvas.undo c2).map Prod.fst)) =
      some (["r", "a"], [], some false) ∧
    ¬ cDemo.active_path = ["r", "a"] :=
  ⟨rfl, by decide⟩

/-- C6 (amended): `add_node` reassigns the root pointer and resets the
active path on EVERY Root-kind node it is given, not only the first; for
non-Root nodes both are untouched. -/
theorem C6_add_node_root_reassign (c : Canvas) (n : CanvasNode)
    (ru : Bool) :
    (c.add_node n ru).root_id =
      (if n.type = NodeType.ROOT then some n.id else c.root_id) ∧
    (c.add_node n ru).active_path =
      (if n.type = NodeType.ROOT then [n.id] else c.active_path) := by
  obtain ⟨_, h2, h3, _⟩ := add_node_fields c n ru
  exact ⟨h2, h3⟩

/-- Counterexample to C6 as stated: adding a second Root node reassigns
`root_id` and leaves two Root-kind nodes in the canvas. -/
theorem C6_second_root_counterexample :
    cDemo.root_id = some "r" ∧
    (cDemo.add_node nR2).root_id = some "r2" ∧
    ((valuesOf (cDemo.add_node nR2).nodes).filter
      (fun n => n.type == NodeType.ROOT)).length = 2 :=
  ⟨rfl, rfl, rfl⟩

/-- C7 (amended): `add_link` validates both endpoints and their
distinctness and is idempotent on the node map, but `remove_link` checks
ONLY that the from-node exists — a missing target id or equal endpoints
do not stop a removal. -/
theorem C7_link_validation {c : Canvas} {f t : String} :
    (dictGet c.nodes f = none ∨ dictGet c.nodes t = none →
      c.add_link f t = (false, c)) ∧
    (f = t → c.add_link f t = (false, c)) ∧
    (∀ nf, dictGet c.nodes f = some nf → t ∈ nf.links_to →
      (c.add_link f t).1 = false ∧ (c.add_link f t).2.nodes = c.nodes) ∧
    (dictGet c.nodes f = none → c.remove_link f t = (false, c)) := by
  refine ⟨fun h => add_link_missing true h, ?_, ?_,
    fun h => remove_link_missing true h⟩
  · intro he
    rcases hf : dictGet c.nodes f with _ | nf
    · exact add_link_missing true (Or.inl hf)
    · rcases ht : dictGet c.nodes t with _ | nt
      · exact add_link_missing true (Or.inr ht)
      · exact add_link_self true hf ht he
  · intro nf hf hmem
    rcases ht : dictGet c.nodes t with _ | nt
    · rw [add_link_missing true (Or.inr ht)]
      exact ⟨rfl, rfl⟩
    · by_cases hft : f = t
      · rw [add_link_self true hf ht hft]
        exact ⟨rfl, rfl⟩
      · obtain ⟨h1, h2, _⟩ := add_link_success_fields hf ht hft
        have hnf : (nf.add_link t).2 = nf := by
          rw [CanvasNode.add_link, if_neg (fun hn => hn hmem)]
        refine ⟨?_, ?_⟩
        · rw [h1, CanvasNode.add_link, if_neg (fun hn => hn hmem)]
        · rw [h2, hnf]
          exact dictSet_eq_of_get hf

/-- Counterexample to C7 as stated: removing a link whose target id does
not exist in the canvas succeeds (returns `True`) and mutates the
from-node, instead of failing validation. -/
theorem C7_remove_dangling_counterexample :
    ¬ dictMem cDemo.nodes "zz" = true ∧
    (cDemo.remove_link "b" "zz").1 = true ∧
    (dictGet (cDemo.remove_link "b" "zz").2.nodes "b").map
      CanvasNode.links_to = some ["a"] ∧
    nB.links_to = ["a", "zz"] :=
  ⟨by decide, rfl, rfl, rfl⟩

/-- C8: serialization round trip — `from_dict (to_dict c)` succeeds and
restores the same node map, root pointer and active path (undo/redo
state excluded). -/
theorem C8_roundtrip (c : Canvas) :
    ∃ c2, Canvas.from_dict c.to_dict = some c2 ∧ c2.nodes = c.nodes ∧
      c2.root_id = c.root_id ∧ c2.active_path = c.active_path := by
  rw [Canvas.from_dict]
  rw [show (Canvas.to_dict c).nodes =
    c.nodes.map (fun e => (e.1, e.2.to_dict)) from rfl]
  rw [restoreNodes_map_to_dict]
  exact ⟨_, rfl, rfl, rfl, rfl⟩

/-- C9: the safety claim fails in the code — on content whose JSON
summary field is a number, `_compress` raises `TypeError`
(`len(summary)` on an `int`), and the exception escapes `edit_node`. -/
theorem C9_compress_type_error :
    _compress jsonBad = Except.error "TypeError" ∧
    cDemo.edit_node "a" jsonBad = none :=
  ⟨rfl, rfl⟩

/-- C10: searching with the empty query matches every node — the result
is exactly the list of all nodes in insertion order, for either value of
case sensitivity (and `search` reads the canvas without mutating it). -/
theorem C10_search_empty (c : Canvas) (cs : Bool) :
    c.search "" cs = valuesOf c.nodes := by
  cases cs
  · show (valuesOf c.nodes).filter
      (fun node => pyIn (pyLower "") (pyLower node.content_full)) =
      valuesOf c.nodes
    refine List.filter_eq_self.2 ?_
    intro a _
    rw [show pyLower "" = "" from rfl, pyIn_nil]
  · show (valuesOf c.nodes).filter
      (fun node => pyIn "" node.content_full) = valuesOf c.nodes
    refine List.filter_eq_self.2 ?_
    intro a _
    rw [pyIn_nil]

end FutureTokenizer
